import Mathlib

/-!
Verification of the h5db scan executor (src/h5_read.cpp) against its
specification.  The definitions below are shallow embeddings of the C++
functions: machine integers (idx_t, hsize_t — both 64-bit unsigned) are
modelled as Nat with explicit wraparound where overflow can matter.
-/

namespace H5db

/-- Modulus of the 64-bit unsigned types idx_t / hsize_t. -/
def UINT64_MOD : Nat := 2 ^ 64

/-- idx_t subtraction a - b with 64-bit wraparound (arguments < 2^64). -/
def u64sub (a b : Nat) : Nat :=
  if b ≤ a then a - b else a + UINT64_MOD - b

/-- DuckDB's STANDARD_VECTOR_SIZE (the host engine's chunk size). -/
def STANDARD_VECTOR_SIZE : Nat := 2048

/-- Row range [start_row, end_row), h5_read.cpp struct RowRange. -/
structure RowRange where
  start_row : Nat
  end_row : Nat
deriving DecidableEq, Repr

/-- Membership of a row index in a RowRange (half-open interval). -/
def inRange (n : Nat) (r : RowRange) : Prop :=
  r.start_row ≤ n ∧ n < r.end_row

instance (n : Nat) (r : RowRange) : Decidable (inRange n r) := by
  unfold inRange; infer_instance

/-- Result record of the scan driver's slice selection (struct RangeSelection). -/
structure RangeSelection where
  has_data : Bool
  position : Nat
  to_read : Nat
deriving DecidableEq, Repr

/-- Embedding of NextRangeFrom (h5_read.cpp lines 1012-1022): walk the
valid row ranges, and at the first range whose end_row exceeds position
return the slice starting at position (the code does NOT advance to the
range's start_row) of length min(STANDARD_VECTOR_SIZE, end_row - position). -/
def NextRangeFrom : List RowRange → Nat → RangeSelection
  | [], _ => ⟨false, 0, 0⟩
  | r :: rest, position =>
    if position < r.end_row then
      ⟨true, position, min STANDARD_VECTOR_SIZE (r.end_row - position)⟩
    else
      NextRangeFrom rest position

/-- Embedding of GetNextDataRange (h5_read.cpp lines 1025-1035): under the
driver mutex, pick the next slice and advance the shared position by the
slice length.  Returns the selection together with the updated position. -/
def GetNextDataRange (valid_row_ranges : List RowRange) (position : Nat) :
    RangeSelection × Nat :=
  let range := NextRangeFrom valid_row_ranges position
  if range.has_data then (range, position + range.to_read) else (range, position)

/-- DuckDB ExpressionType, restricted to the comparison tags the code
inspects; OTHER stands for every other tag (default switch branches). -/
inductive ExpressionType where
  | COMPARE_EQUAL
  | COMPARE_GREATERTHAN
  | COMPARE_GREATERTHANOREQUALTO
  | COMPARE_LESSTHAN
  | COMPARE_LESSTHANOREQUALTO
  | OTHER
deriving DecidableEq, Repr

/-- Embedding of EvaluateComparison (h5_read.cpp lines 341-357):
value <comparison> filter_val, false on any unsupported tag. -/
def EvaluateComparison {α : Type} [LinearOrder α]
    (value : α) (comparison : ExpressionType) (filter_val : α) : Bool :=
  match comparison with
  | .COMPARE_EQUAL => decide (value = filter_val)
  | .COMPARE_GREATERTHAN => decide (value > filter_val)
  | .COMPARE_GREATERTHANOREQUALTO => decide (value ≥ filter_val)
  | .COMPARE_LESSTHAN => decide (value < filter_val)
  | .COMPARE_LESSTHANOREQUALTO => decide (value ≤ filter_val)
  | .OTHER => false

/-- Embedding of FlipComparison (h5_read.cpp lines 826-840): operator used
after moving a constant from the left side to the right side. -/
def FlipComparison : ExpressionType → ExpressionType
  | .COMPARE_LESSTHAN => .COMPARE_GREATERTHAN
  | .COMPARE_LESSTHANOREQUALTO => .COMPARE_GREATERTHANOREQUALTO
  | .COMPARE_GREATERTHAN => .COMPARE_LESSTHAN
  | .COMPARE_GREATERTHANOREQUALTO => .COMPARE_LESSTHANOREQUALTO
  | t => t

/-- The whitelist switch of TryClaimRSEFilter (h5_read.cpp lines 881-899):
only these five comparison tags are claimed. -/
def comparisonWhitelisted : ExpressionType → Bool
  | .COMPARE_EQUAL => true
  | .COMPARE_GREATERTHAN => true
  | .COMPARE_GREATERTHANOREQUALTO => true
  | .COMPARE_LESSTHAN => true
  | .COMPARE_LESSTHANOREQUALTO => true
  | .OTHER => false

/-- Normalization step of TryClaimRSEFilter (h5_read.cpp lines 856-899) for a
column/constant comparison: flip the operator when the constant is on the
left, then claim it only if whitelisted. -/
def claimComparison (constant_on_left : Bool) (op : ExpressionType) :
    Option ExpressionType :=
  let comparison := if constant_on_left then FlipComparison op else op
  if comparisonWhitelisted comparison then some comparison else none

/-- The strictly-increasing loop of H5ReadInit (h5_read.cpp lines 702-706):
passes iff every adjacent pair of run starts is strictly increasing. -/
def strictlyIncreasingCheck : List Nat → Bool
  | [] => true
  | a :: rest =>
    match rest with
    | [] => true
    | b :: _ => decide (a < b) && strictlyIncreasingCheck rest

/-- Embedding of the RSE validation sequence of H5ReadInit (h5_read.cpp lines
673-710), with the checks in source order: size mismatch, non-integer
run_starts storage class, first run start nonzero, not strictly increasing,
last run start reaching num_rows.  run_starts is the array as read (its
length is the dataspace point count num_runs); an error aborts Init, so no
scan state is produced and no rows are output. -/
def ValidateRSE (run_starts : List Nat) (num_values : Nat)
    (starts_is_integer : Bool) (num_rows : Nat) : Except String Unit :=
  if run_starts.length ≠ num_values then
    .error ("RSE run_starts and values must have same size. Got " ++
      toString run_starts.length ++ " and " ++ toString num_values)
  else if starts_is_integer = false then
    .error "RSE run_starts must be integer type"
  else if 0 < run_starts.length ∧ run_starts.headD 0 ≠ 0 then
    .error ("RSE run_starts must begin with 0, got " ++ toString (run_starts.headD 0))
  else if strictlyIncreasingCheck run_starts = false then
    .error "RSE run_starts must be strictly increasing"
  else if 0 < run_starts.length ∧ num_rows ≤ run_starts.getLastD 0 then
    .error ("RSE run_starts contains index " ++ toString (run_starts.getLastD 0) ++
      " which exceeds dataset length " ++ toString num_rows)
  else
    .ok ()

/-- Embedding of std::upper_bound over the (validated, ascending) run_starts
array: index of the first entry strictly greater than x, or the length if
there is none. -/
def upperBound : List Nat → Nat → Nat
  | [], _ => 0
  | a :: rest, x => if x < a then 0 else upperBound rest x + 1

/-- The run index computed by ScanRSEColumn (h5_read.cpp lines 1049-1050):
(upper_bound(run_starts, position) - begin) - 1 in idx_t arithmetic, so an
upper_bound of 0 wraps around to 2^64 - 1. -/
def rseCurrentRun (run_starts : List Nat) (position : Nat) : Nat :=
  (upperBound run_starts position + (UINT64_MOD - 1)) % UINT64_MOD

/-- next_run_start in ScanRSEColumn (lines 1051-1052 and 1106-1107): the next
run's start, or num_rows for the last run, with idx_t wraparound on
current_run + 1. -/
def rseNextRunStart (run_starts : List Nat) (num_rows current_run : Nat) : Nat :=
  if (current_run + 1) % UINT64_MOD < run_starts.length then
    run_starts.getD ((current_run + 1) % UINT64_MOD) 0
  else num_rows

/-- Output vector shape of a column materializer: a constant vector (single
value standing for all rows of the chunk) or a flat vector. -/
inductive RSEOutput (α : Type) where
  | constant : α → RSEOutput α
  | flat : List α → RSEOutput α
deriving DecidableEq, Repr

/-- The batched fill loop of ScanRSEColumn (h5_read.cpp lines 1073-1109),
accumulating the flat vector contents.  Fuel bounds the number of loop
iterations (each productive iteration fills at least one row, so to_read
fuel is enough for every terminating execution); none models an
out-of-bounds values access or a non-terminating loop. -/
def rseFillAux {α : Type} (run_starts : List Nat) (values : List α)
    (num_rows position to_read : Nat) :
    Nat → Nat → Nat → List α → Option (List α)
  | 0, i, _, acc => if i < to_read then none else some acc
  | fuel + 1, i, current_run, acc =>
    if i < to_read then
      match values[current_run]? with
      | none => none
      | some run_value =>
        let current_row := position + i
        let next_run_start := rseNextRunStart run_starts num_rows current_run
        let rows_to_fill := min (u64sub next_run_start current_row) (to_read - i)
        let acc' := acc ++ List.replicate rows_to_fill run_value
        if i + rows_to_fill < to_read then
          rseFillAux run_starts values num_rows position to_read fuel
            (i + rows_to_fill) ((current_run + 1) % UINT64_MOD) acc'
        else some acc'
    else some acc

/-- Embedding of ScanRSEColumn (h5_read.cpp lines 1038-1111): binary-search
the run containing position; if the whole slice fits inside that run emit a
constant vector with the run's value, otherwise fill a flat vector run by
run.  none models an out-of-bounds access (or non-termination) in the C++. -/
def ScanRSEColumn {α : Type} (run_starts : List Nat) (values : List α)
    (position to_read num_rows : Nat) : Option (RSEOutput α) :=
  let current_run := rseCurrentRun run_starts position
  let next_run_start := rseNextRunStart run_starts num_rows current_run
  let rows_in_current_run := u64sub next_run_start position
  if to_read ≤ rows_in_current_run then
    match values[current_run]? with
    | some run_value => some (.constant run_value)
    | none => none
  else
    (rseFillAux run_starts values num_rows position to_read
      to_read 0 current_run []).map .flat

/-- The value an emitted vector holds for row offset i of the chunk. -/
def deliveredAt {α : Type} : RSEOutput α → Nat → Option α
  | .constant v, _ => some v
  | .flat vs, i => vs[i]?

/-- Specification-side characterization of the run covering a row:
j = max of all k with run_starts[k] ≤ row. -/
def IsRunIndex (run_starts : List Nat) (row j : Nat) : Prop :=
  j < run_starts.length ∧ run_starts.getD j 0 ≤ row ∧
    ∀ k < run_starts.length, run_starts.getD k 0 ≤ row → k ≤ j

/-- Embedding of IntersectRowRanges (h5_read.cpp lines 503-526): merge-based
intersection of two sorted disjoint row range lists. -/
def IntersectRowRanges : List RowRange → List RowRange → List RowRange
  | [], _ => []
  | _ :: _, [] => []
  | x :: xs, y :: ys =>
    let s := max x.start_row y.start_row
    let e := min x.end_row y.end_row
    let rest :=
      if x.end_row < y.end_row then IntersectRowRanges xs (y :: ys)
      else IntersectRowRanges (x :: xs) ys
    if s < e then ⟨s, e⟩ :: rest else rest
termination_by a b => a.length + b.length

/-- Conjunction of all claimed filter constants of one column against a run
value (h5_read.cpp lines 783-789). -/
def satisfiesAll {α : Type} [LinearOrder α]
    (filters : List (ExpressionType × α)) (value : α) : Bool :=
  filters.all fun f => EvaluateComparison value f.1 f.2

/-- The run-scan state machine of H5ReadInit's range planner (h5_read.cpp
lines 773-806): walk the (value, run_start) pairs, opening a range at the
first satisfying run and closing it at the next non-satisfying run; a range
still open after the last run is closed at num_rows. -/
def buildRangesAux {α : Type} [LinearOrder α]
    (filters : List (ExpressionType × α)) (num_rows : Nat) :
    List (α × Nat) → Bool → Nat → List RowRange
  | [], in_range, current_start =>
    if in_range then [⟨current_start, num_rows⟩] else []
  | (value, run_start) :: rest, in_range, current_start =>
    let sat := satisfiesAll filters value
    if sat ∧ in_range = false then
      buildRangesAux filters num_rows rest true run_start
    else if sat = false ∧ in_range then
      ⟨current_start, run_start⟩ :: buildRangesAux filters num_rows rest false current_start
    else
      buildRangesAux filters num_rows rest in_range current_start

/-- One RSE column with claimed filters, as seen by the range planner. -/
structure RSEFilterColumn (α : Type) where
  values : List α
  run_starts : List Nat
  filters : List (ExpressionType × α)

/-- Per-column range list of the planner (h5_read.cpp lines 762-808). -/
def buildColRanges {α : Type} [LinearOrder α]
    (num_rows : Nat) (col : RSEFilterColumn α) : List RowRange :=
  buildRangesAux col.filters num_rows (col.values.zip col.run_starts) false 0

/-- The range planner of H5ReadInit (h5_read.cpp lines 742-818): start from
the single range [0, num_rows) and intersect in the per-column range lists;
with no claimed filters the initial list is returned unchanged (the code's
explicit else branch pushes the same single range). -/
def planRanges {α : Type} [LinearOrder α]
    (num_rows : Nat) (cols : List (RSEFilterColumn α)) : List RowRange :=
  cols.foldl (fun ranges col => IntersectRowRanges ranges (buildColRanges num_rows col))
    [⟨0, num_rows⟩]

/-- Driver completion-tracking state (H5ReadGlobalState.position_done and
completed_ranges).  completed_ranges is the std::map keyed by scan start
position, modelled as an association list (keys are distinct since the
driver hands out disjoint slices). -/
structure DriverDoneState where
  position_done : Nat
  completed_ranges : List (Nat × Nat)
deriving DecidableEq, Repr

/-- std::map::find on the completion map: value at key k, if present. -/
def lookupStart (k : Nat) : List (Nat × Nat) → Option Nat
  | [] => none
  | (s, e) :: rest => if s = k then some e else lookupStart k rest

/-- std::map::erase of the entry at key k (first occurrence). -/
def eraseStart (k : Nat) : List (Nat × Nat) → List (Nat × Nat)
  | [] => []
  | (s, e) :: rest => if s = k then rest else (s, e) :: eraseStart k rest

/-- The merge loop of H5ReadScan (h5_read.cpp lines 1454-1462): repeatedly
fold in the parked completion starting at the current position_done.  Each
iteration erases one map entry, so the map size bounds the iteration count;
the fuel argument carries that bound. -/
def foldCompletedAux : Nat → Nat → List (Nat × Nat) → Nat × List (Nat × Nat)
  | 0, done, parked => (done, parked)
  | fuel + 1, done, parked =>
    match lookupStart done parked with
    | none => (done, parked)
    | some e => foldCompletedAux fuel e (eraseStart done parked)

/-- Run the merge loop of H5ReadScan to completion. -/
def foldCompleted (done : Nat) (parked : List (Nat × Nat)) :
    Nat × List (Nat × Nat) :=
  foldCompletedAux parked.length done parked

/-- Embedding of the completion report of H5ReadScan (h5_read.cpp lines
1443-1467): a completion [position, scan_end) starting at position_done
advances it to scan_end and folds in newly contiguous parked completions;
any other completion is parked keyed by its start. -/
def reportCompletion (st : DriverDoneState) (position scan_end : Nat) :
    DriverDoneState :=
  if position = st.position_done then
    let folded := foldCompleted scan_end st.completed_ranges
    ⟨folded.1, folded.2⟩
  else
    ⟨st.position_done, (position, scan_end) :: st.completed_ranges⟩

/-- Process a sequence of completion reports from the initial driver state
(position_done = 0, empty map). -/
def processReports (reports : List (Nat × Nat)) : DriverDoneState :=
  reports.foldl (fun st r => reportCompletion st r.1 r.2) ⟨0, []⟩

/-- Two half-open intervals (given as (start, end) pairs) are disjoint. -/
def RDisj (a b : Nat × Nat) : Prop := a.2 ≤ b.1 ∨ b.2 ≤ a.1

/-- A row index is covered by some interval of the list. -/
def coveredBy (S : List (Nat × Nat)) (n : Nat) : Prop :=
  ∃ r ∈ S, r.1 ≤ n ∧ n < r.2

instance (a b : Nat × Nat) : Decidable (RDisj a b) := by
  unfold RDisj; infer_instance

/-- A column argument of h5_read as far as row counting is concerned: a
regular dataset carries its first dimension (H5ReadBind requires ndims >= 1),
an RSE struct carries none. -/
inductive ColumnInput where
  | regular (first_dim : Nat)
  | rse
deriving DecidableEq, Repr

/-- Whether a column argument is a regular (non-RSE) dataset. -/
def isRegular : ColumnInput → Bool
  | .regular _ => true
  | .rse => false

/-- First dimensions of the regular columns, in argument order. -/
def regularDims : List ColumnInput → List Nat
  | [] => []
  | .regular d :: rest => d :: regularDims rest
  | .rse :: rest => regularDims rest

/-- Largest hsize_t value, the initial min_rows of H5ReadBind (line 391). -/
def HSIZE_MAX : Nat := UINT64_MOD - 1

/-- The min_rows tracking loop of H5ReadBind (lines 391-480): fold over the
column arguments, taking the minimum first dimension of the regular ones. -/
def bindMinRows (cols : List ColumnInput) : Nat :=
  cols.foldl
    (fun min_rows c =>
      match c with
      | .regular d => if d < min_rows then d else min_rows
      | .rse => min_rows)
    HSIZE_MAX

/-- Row count determination of H5ReadBind (lines 482-488): error when no
regular dataset is present, otherwise num_rows = min over regular first
dimensions. -/
def H5ReadBindNumRows (cols : List ColumnInput) : Except String Nat :=
  if cols.countP (fun c => isRegular c) = 0 then
    .error "h5_read requires at least one regular (non-RSE) dataset to determine row count"
  else
    .ok (bindMinRows cols)

/-- A delivered cell of a string column: SQL NULL or a string value. -/
inductive CellValue where
  | null
  | str (s : String)
deriving DecidableEq, Repr

/-- Variable-length branch of ReadHDF5Strings (h5_read.cpp lines 292-314):
the storage library hands back owned char pointers; a null pointer is passed
to the callback as the empty string. -/
def readVariableStrings (raw : List (Option String)) : List String :=
  raw.map fun p =>
    match p with
    | some s => s
    | none => ""

/-- The NUL character terminating fixed-length string entries. -/
def NUL : Char := Char.ofNat 0

/-- Fixed-length branch of ReadHDF5Strings (h5_read.cpp lines 316-333): each
str_len-byte entry is truncated at its first NUL (strnlen). -/
def readFixedStrings (entries : List (List Char)) : List String :=
  entries.map fun e => String.mk (e.takeWhile fun c => c ≠ NUL)

/-- String delivery of ScanRegularColumn (h5_read.cpp lines 1341-1350): an
empty string is delivered as SQL NULL, any other string verbatim. -/
def deliverRegularStringCell (s : String) : CellValue :=
  if s.isEmpty then .null else .str s

/-- Regular string column materialization: read strings, then deliver. -/
def ScanRegularStringColumn (strings : List String) : List CellValue :=
  strings.map deliverRegularStringCell

/-- String delivery of ScanRSEColumn (h5_read.cpp lines 1062-1064 and
1087-1091): the run value is added to the string vector unconditionally —
there is no empty-string/NULL check on this path. -/
def deliverRSEStringCell (s : String) : CellValue := .str s

/-- Cell delivered by an RSE string column for row offset i of a chunk. -/
def rseDelivered (out : RSEOutput String) (i : Nat) : Option CellValue :=
  (deliveredAt out i).map deliverRSEStringCell

end H5db

namespace H5db

lemma strictlyIncreasingCheck_iff : ∀ rs : List Nat,
    strictlyIncreasingCheck rs = true ↔ List.Chain' (· < ·) rs
  | [] => by simp [strictlyIncreasingCheck]
  | [_] => by simp [strictlyIncreasingCheck]
  | a :: b :: t => by
    rw [strictlyIncreasingCheck]
    simp [strictlyIncreasingCheck_iff (b :: t), List.chain'_cons]

lemma ValidateRSE_ok_iff {rs : List Nat} {nv nr : Nat} {b : Bool} :
    ValidateRSE rs nv b nr = .ok () ↔
      rs.length = nv ∧ b = true ∧ (rs = [] ∨ rs.headD 0 = 0) ∧
        List.Chain' (· < ·) rs ∧ (rs = [] ∨ rs.getLastD 0 < nr) := by
  have hlen0 : rs = [] ↔ rs.length = 0 := by
    constructor
    · intro h; rw [h]; rfl
    · exact List.eq_nil_of_length_eq_zero
  unfold ValidateRSE
  split_ifs with h1 h2 h3 h4 h5
  · exact ⟨fun h => (by cases h), fun ⟨g, _⟩ => absurd g h1⟩
  · refine ⟨fun h => (by cases h), fun ⟨_, g, _⟩ => ?_⟩
    rw [g] at h2; cases h2
  · refine ⟨fun h => (by cases h), fun ⟨_, _, g, _⟩ => ?_⟩
    rcases g with g | g
    · rw [hlen0] at g; omega
    · exact h3.2 g
  · refine ⟨fun h => (by cases h), fun ⟨_, _, _, g, _⟩ => ?_⟩
    rw [← strictlyIncreasingCheck_iff] at g
    rw [g] at h4; cases h4
  · refine ⟨fun h => (by cases h), fun ⟨_, _, _, _, g⟩ => ?_⟩
    rcases g with g | g
    · rw [hlen0] at g; omega
    · omega
  · refine ⟨fun _ => ⟨not_not.mp h1, ?_, ?_, ?_, ?_⟩, fun _ => rfl⟩
    · cases b
      · exact absurd rfl h2
      · rfl
    · by_cases hnil : rs = []
      · exact Or.inl hnil
      · refine Or.inr ?_
        rw [not_and_or] at h3
        rcases h3 with h3 | h3
        · exact absurd (by rw [hlen0] at hnil; omega) h3
        · exact not_not.mp h3
    · rw [← strictlyIncreasingCheck_iff]
      cases hc : strictlyIncreasingCheck rs
      · exact absurd hc h4
      · rfl
    · by_cases hnil : rs = []
      · exact Or.inl hnil
      · refine Or.inr ?_
        rw [not_and_or] at h5
        rcases h5 with h5 | h5
        · exact absurd (by rw [hlen0] at hnil; omega) h5
        · omega

lemma validate_begin0_message {rs : List Nat} {nv nr : Nat}
    (h1 : rs.length = nv) (h3 : 0 < rs.length) (h4 : rs.headD 0 ≠ 0) :
    ValidateRSE rs nv true nr =
      .error ("RSE run_starts must begin with 0, got " ++ toString (rs.headD 0)) := by
  unfold ValidateRSE
  split_ifs with g1 g2 g3 <;> simp_all

/-- Claim C4.  H5ReadInit's RSE validation fails with an error — aborting
Init, so no scan state is produced and no rows are output — whenever the
scanned RSE column has run_starts not beginning with 0, run_starts not
strictly increasing, a last run start at or above num_rows, run_starts and
values arrays of different lengths, or a non-integer run_starts storage
class; and whenever the begin-with-0 check is the one that fires (as it is
for run_starts = [1,5]) the error message contains "must begin with 0". -/
theorem h5ReadInit_validation_raises
    (rs : List Nat) (nv nr : Nat) (is_int : Bool)
    (hbad : rs.length ≠ nv ∨ is_int = false ∨
      (∃ h t, rs = h :: t ∧ h ≠ 0) ∨
      (∃ i, i + 1 < rs.length ∧ rs.getD (i + 1) 0 ≤ rs.getD i 0) ∨
      (∃ b, rs.getLast? = some b ∧ nr ≤ b)) :
    ∃ msg, ValidateRSE rs nv is_int nr = .error msg ∧
      ((rs.length = nv ∧ is_int = true ∧ 0 < rs.length ∧ rs.headD 0 ≠ 0) →
        ∃ pre post, msg = pre ++ "must begin with 0" ++ post) := by
  have hnotok : ValidateRSE rs nv is_int nr ≠ .ok () := by
    intro hok
    rw [ValidateRSE_ok_iff] at hok
    rcases hok with ⟨g1, g2, g3, g4, g5⟩
    rcases hbad with hb | hb | ⟨h, t, rfl, hh⟩ | ⟨i, hi, hle⟩ | ⟨lb, hlb, hnr⟩
    · exact hb g1
    · rw [g2] at hb; cases hb
    · rcases g3 with g3 | g3
      · cases g3
      · exact hh (by simpa using g3)
    · have := List.chain'_iff_get.mp g4 i (by omega)
      have hgi : rs.get ⟨i, by omega⟩ = rs.getD i 0 := by
        simp [List.getD_eq_getElem?_getD, List.getElem?_eq_getElem (show i < rs.length by omega)]
      have hgi1 : rs.get ⟨i + 1, by omega⟩ = rs.getD (i + 1) 0 := by
        simp [List.getD_eq_getElem?_getD, List.getElem?_eq_getElem hi]
      rw [hgi, hgi1] at this
      omega
    · rcases g5 with g5 | g5
      · rw [g5] at hlb; simp at hlb
      · have : rs.getLastD 0 = lb := by
          rw [List.getLastD_eq_getLast?, hlb]; rfl
        omega
  cases hv : ValidateRSE rs nv is_int nr with
  | ok u => cases u; exact absurd hv hnotok
  | error msg =>
    refine ⟨msg, rfl, ?_⟩
    rintro ⟨g1, g2, g3, g4⟩
    subst g2
    rw [validate_begin0_message g1 g3 g4] at hv
    cases hv
    refine ⟨"RSE run_starts ", ", got " ++ toString (rs.headD 0), ?_⟩
    have hlit : "RSE run_starts must begin with 0, got " =
        "RSE run_starts " ++ "must begin with 0" ++ ", got " := by decide
    rw [hlit, String.append_assoc, String.append_assoc]

/-- Witness for claim C4 at run_starts = [1,5], num_values = 2, num_rows = 7:
Init fails and the message contains "must begin with 0". -/
theorem h5ReadInit_validation_raises_witness :
    ∃ msg, ValidateRSE [1, 5] 2 true 7 = .error msg ∧
      (([1, 5] : List Nat).length = 2 ∧ true = true ∧
          0 < ([1, 5] : List Nat).length ∧ ([1, 5] : List Nat).headD 0 ≠ 0 →
        ∃ pre post, msg = pre ++ "must begin with 0" ++ post) :=
  h5ReadInit_validation_raises [1, 5] 2 7 true
    (Or.inr (Or.inr (Or.inl ⟨1, [5], rfl, by decide⟩)))

lemma foldl_min_facts :
    ∀ (dims : List Nat) (acc : Nat),
      (dims.foldl (fun m d => if d < m then d else m) acc ≤ acc ∧
        (∀ d ∈ dims, dims.foldl (fun m d => if d < m then d else m) acc ≤ d) ∧
        (dims.foldl (fun m d => if d < m then d else m) acc = acc ∨
          dims.foldl (fun m d => if d < m then d else m) acc ∈ dims))
  | [], acc => by simp
  | d :: rest, acc => by
    rcases foldl_min_facts rest (if d < acc then d else acc) with ⟨hle, hall, hmem⟩
    have hacc : (if d < acc then d else acc) ≤ acc := by split_ifs <;> omega
    have hdle : (if d < acc then d else acc) ≤ d := by split_ifs <;> omega
    have hor : (if d < acc then d else acc) = d ∨ (if d < acc then d else acc) = acc := by
      split_ifs <;> simp
    simp only [List.foldl_cons]
    refine ⟨le_trans hle hacc, ?_, ?_⟩
    · intro x hx
      rcases List.mem_cons.mp hx with rfl | hx
      · exact le_trans hle hdle
      · exact hall x hx
    · rcases hmem with heq | hmem
      · rcases hor with h2 | h2
        · rw [heq, h2]; exact Or.inr (List.mem_cons_self d rest)
        · rw [heq, h2]; exact Or.inl rfl
      · exact Or.inr (List.mem_cons_of_mem d hmem)

lemma bindMinRows_eq_foldl :
    ∀ cols : List ColumnInput, ∀ acc : Nat,
      cols.foldl
          (fun min_rows c =>
            match c with
            | .regular d => if d < min_rows then d else min_rows
            | .rse => min_rows) acc =
        (regularDims cols).foldl (fun m d => if d < m then d else m) acc
  | [], _ => rfl
  | .regular d :: rest, acc => by
    simp only [List.foldl_cons, regularDims]
    exact bindMinRows_eq_foldl rest (if d < acc then d else acc)
  | .rse :: rest, acc => by
    simp only [List.foldl_cons, regularDims]
    exact bindMinRows_eq_foldl rest acc

lemma regularDims_eq_nil_iff :
    ∀ cols : List ColumnInput, regularDims cols = [] ↔ ∀ c ∈ cols, isRegular c = false
  | [] => by simp [regularDims]
  | .regular d :: rest => by simp [regularDims, isRegular]
  | .rse :: rest => by
    simp [regularDims, isRegular, regularDims_eq_nil_iff rest]

/-- Claim C8.  H5ReadBind fails with an error when the argument list has no
regular (non-RSE) column, and otherwise sets the bind record's num_rows to
the minimum first dimension across the regular column arguments (first
dimensions are hsize_t values, hence below 2^64). -/
theorem h5ReadBind_num_rows (cols : List ColumnInput)
    (hdims : ∀ d ∈ regularDims cols, d < UINT64_MOD) :
    ((∀ c ∈ cols, isRegular c = false) →
      H5ReadBindNumRows cols =
        .error "h5_read requires at least one regular (non-RSE) dataset to determine row count") ∧
    ((∃ c ∈ cols, isRegular c = true) →
      ∃ m, H5ReadBindNumRows cols = .ok m ∧ m ∈ regularDims cols ∧
        ∀ d ∈ regularDims cols, m ≤ d) := by
  constructor
  · intro hall
    have : cols.countP (fun c => isRegular c) = 0 :=
      List.countP_eq_zero.mpr (by intro c hc; simp [hall c hc])
    simp [H5ReadBindNumRows, this]
  · rintro ⟨c, hc, hreg⟩
    have hcount : cols.countP (fun c => isRegular c) ≠ 0 := by
      intro h0
      have := List.countP_eq_zero.mp h0 c hc
      simp [hreg] at this
    have hne : regularDims cols ≠ [] := by
      intro h0
      have := (regularDims_eq_nil_iff cols).mp h0 c hc
      rw [hreg] at this; cases this
    rcases foldl_min_facts (regularDims cols) HSIZE_MAX with ⟨hle, hall, hmem⟩
    refine ⟨bindMinRows cols, by simp [H5ReadBindNumRows, hcount], ?_, ?_⟩
    · rw [bindMinRows, bindMinRows_eq_foldl]
      rcases hmem with heq | hmem
      · rcases List.exists_mem_of_ne_nil _ hne with ⟨d0, hd0⟩
        have h1 : d0 < UINT64_MOD := hdims d0 hd0
        have h2 := hall d0 hd0
        have : d0 = HSIZE_MAX := by
          rw [heq] at h2
          have : HSIZE_MAX = UINT64_MOD - 1 := rfl
          omega
        rw [heq]
        rw [← this] at heq ⊢
        exact hd0
      · exact hmem
    · intro d hd
      rw [bindMinRows, bindMinRows_eq_foldl]
      exact hall d hd

/-- Witness for claim C8 at arguments [regular 5, rse, regular 3]:
num_rows = 3, the minimum regular first dimension. -/
theorem h5ReadBind_num_rows_witness :
    ∃ m, H5ReadBindNumRows [.regular 5, .rse, .regular 3] = .ok m ∧
      m ∈ regularDims [.regular 5, .rse, .regular 3] ∧
      ∀ d ∈ regularDims [.regular 5, .rse, .regular 3], m ≤ d :=
  (h5ReadBind_num_rows [.regular 5, .rse, .regular 3] (by decide)).2
    ⟨.regular 5, by simp, rfl⟩

lemma u64sub_of_le {a b : Nat} (h : b ≤ a) : u64sub a b = a - b := by
  simp [u64sub, h]

lemma getD_eq_getElem0 (rs : List Nat) (i : Nat) (h : i < rs.length) :
    rs.getD i 0 = rs[i] := by
  simp [List.getD_eq_getElem?_getD, List.getElem?_eq_getElem h]

lemma upperBound_le_length : ∀ (rs : List Nat) (x : Nat), upperBound rs x ≤ rs.length
  | [], _ => Nat.le_refl 0
  | a :: t, x => by
    rw [upperBound]
    split_ifs
    · simp
    · simpa using upperBound_le_length t x

lemma upperBound_pos {rs : List Nat} {x : Nat} (hne : rs ≠ []) (hhead : rs.headD 0 = 0) :
    1 ≤ upperBound rs x := by
  rcases List.exists_cons_of_ne_nil hne with ⟨a, t, rfl⟩
  have ha : a = 0 := by simpa using hhead
  subst ha
  rw [upperBound]
  simp

lemma getD_le_of_lt_upperBound : ∀ (rs : List Nat) (x k : Nat),
    k < upperBound rs x → rs.getD k 0 ≤ x
  | [], x, k => by
    intro h; rw [upperBound] at h; omega
  | a :: t, x, k => by
    intro h
    rw [upperBound] at h
    split_ifs at h with hx
    · omega
    · cases k with
      | zero => simpa using Nat.le_of_not_lt hx
      | succ k => simpa using getD_le_of_lt_upperBound t x k (by omega)

lemma lt_getD_of_upperBound_le : ∀ (rs : List Nat), List.Pairwise (· < ·) rs →
    ∀ (x k : Nat), upperBound rs x ≤ k → k < rs.length → x < rs.getD k 0
  | [], _, x, k => by
    intro _ h; simp at h
  | a :: t, hpw, x, k => by
    intro hub hk
    rw [upperBound] at hub
    rcases List.pairwise_cons.mp hpw with ⟨ha, hpt⟩
    split_ifs at hub with hx
    · cases k with
      | zero => simpa using hx
      | succ k =>
        have hkt : k < t.length := by simpa using hk
        have hmem : t.getD k 0 ∈ t := by
          rw [getD_eq_getElem0 t k hkt]
          exact List.getElem_mem hkt
        have := ha _ hmem
        simpa using (by omega : x < t.getD k 0)
    · cases k with
      | zero => omega
      | succ k =>
        have hkt : k < t.length := by simpa using hk
        simpa using lt_getD_of_upperBound_le t hpt x k (by omega) hkt

lemma getD_lt_getD {rs : List Nat} (hpw : List.Pairwise (· < ·) rs) {i j : Nat}
    (hij : i < j) (hj : j < rs.length) : rs.getD i 0 < rs.getD j 0 := by
  have hi : i < rs.length := Nat.lt_trans hij hj
  rw [getD_eq_getElem0 _ _ hi, getD_eq_getElem0 _ _ hj]
  exact List.pairwise_iff_getElem.mp hpw i j hi hj hij

lemma idx_le_getD {rs : List Nat} (hpw : List.Pairwise (· < ·) rs) :
    ∀ i, i < rs.length → i ≤ rs.getD i 0 := by
  intro i
  induction i with
  | zero => intro _; exact Nat.zero_le _
  | succ k ih =>
    intro h
    have h1 := ih (by omega)
    have h2 : rs.getD k 0 < rs.getD (k + 1) 0 := getD_lt_getD hpw (by omega) h
    omega

lemma getLastD_eq_getD {rs : List Nat} (hne : rs ≠ []) :
    rs.getLastD 0 = rs.getD (rs.length - 1) 0 := by
  have hlen : 0 < rs.length := List.length_pos.mpr hne
  rw [List.getLastD_eq_getLast?, List.getLast?_eq_getElem?, List.getD_eq_getElem?_getD]

/-- Consequences of a passing RSE validation for a nonempty run_starts array:
lengths match, the first run starts at row 0, the starts are strictly
increasing, every start is below num_rows, and there are at most num_rows
runs. -/
lemma validated_facts {rs : List Nat} {nv nr : Nat}
    (hok : ValidateRSE rs nv true nr = .ok ()) (hne : rs ≠ []) :
    rs.length = nv ∧ rs.headD 0 = 0 ∧ List.Pairwise (· < ·) rs ∧
      (∀ i, i < rs.length → rs.getD i 0 < nr) ∧ rs.length ≤ nr := by
  rw [ValidateRSE_ok_iff] at hok
  rcases hok with ⟨h1, _, h3, h4, h5⟩
  rcases h3 with h3 | h3
  · exact absurd h3 hne
  rcases h5 with h5 | h5
  · exact absurd h5 hne
  have hpw : List.Pairwise (· < ·) rs := List.chain'_iff_pairwise.mp h4
  have hlast : ∀ i, i < rs.length → rs.getD i 0 < nr := by
    intro i hi
    rcases Nat.lt_or_ge i (rs.length - 1) with hlt | hge
    · have := getD_lt_getD hpw hlt (by omega)
      rw [← getLastD_eq_getD hne] at this
      omega
    · have hieq : i = rs.length - 1 := by omega
      rw [hieq, ← getLastD_eq_getD hne]
      exact h5
  refine ⟨h1, h3, hpw, hlast, ?_⟩
  have h0 : rs.length - 1 < rs.length := by
    have := List.length_pos.mpr hne; omega
  have ha := idx_le_getD hpw (rs.length - 1) h0
  have hb := hlast _ h0
  omega

lemma rseCurrentRun_eq {rs : List Nat} {position : Nat}
    (h1 : 1 ≤ upperBound rs position) (h2 : upperBound rs position < UINT64_MOD) :
    rseCurrentRun rs position = upperBound rs position - 1 := by
  unfold rseCurrentRun
  have hM : 1 ≤ UINT64_MOD := Nat.one_le_two_pow
  have heq : upperBound rs position + (UINT64_MOD - 1) =
      (upperBound rs position - 1) + UINT64_MOD := by omega
  rw [heq, Nat.add_mod_right, Nat.mod_eq_of_lt (by omega)]

lemma rseNextRunStart_eq {rs : List Nat} {nr j : Nat} (hj : j + 1 < UINT64_MOD) :
    rseNextRunStart rs nr j = if j + 1 < rs.length then rs.getD (j + 1) 0 else nr := by
  unfold rseNextRunStart
  rw [Nat.mod_eq_of_lt hj]

/-- The binary-searched run index brackets the position: it is in bounds,
its run starts at or before position, and the next run starts after it. -/
lemma currentRun_bracket {rs : List Nat} {nr position : Nat}
    (hpw : List.Pairwise (· < ·) rs) (hne : rs ≠ []) (hhead : rs.headD 0 = 0)
    (hlen_nr : rs.length ≤ nr) (hnr : nr < UINT64_MOD) (hpos : position < nr) :
    rseCurrentRun rs position < rs.length ∧
      rs.getD (rseCurrentRun rs position) 0 ≤ position ∧
      position < rseNextRunStart rs nr (rseCurrentRun rs position) := by
  have hub1 : 1 ≤ upperBound rs position := upperBound_pos hne hhead
  have hubl : upperBound rs position ≤ rs.length := upperBound_le_length rs position
  have hcr := rseCurrentRun_eq hub1 (by omega)
  refine ⟨by omega, ?_, ?_⟩
  · apply getD_le_of_lt_upperBound
    omega
  · rw [rseNextRunStart_eq (by omega)]
    split_ifs with hlt
    · exact lt_getD_of_upperBound_le rs hpw position _ (by omega) hlt
    · exact hpos

lemma isRunIndex_of_bracket {rs : List Nat} {nr r j : Nat}
    (hpw : List.Pairwise (· < ·) rs)
    (hj : j < rs.length) (hle : rs.getD j 0 ≤ r)
    (hlt : r < rseNextRunStart rs nr j) (hjM : j + 1 < UINT64_MOD) :
    IsRunIndex rs r j := by
  refine ⟨hj, hle, ?_⟩
  intro k hk hkle
  by_contra hjk
  push_neg at hjk
  rw [rseNextRunStart_eq hjM] at hlt
  split_ifs at hlt with hj1
  · have hmono : rs.getD (j + 1) 0 ≤ rs.getD k 0 := by
      rcases Nat.eq_or_lt_of_le (show j + 1 ≤ k by omega) with heq | hlt2
      · rw [heq]
      · exact Nat.le_of_lt (getD_lt_getD hpw hlt2 hk)
    omega
  · omega

lemma isRunIndex_unique {rs : List Nat} {r j1 j2 : Nat}
    (h1 : IsRunIndex rs r j1) (h2 : IsRunIndex rs r j2) : j1 = j2 :=
  Nat.le_antisymm (h2.2.2 j1 h1.1 h1.2.1) (h1.2.2 j2 h2.1 h2.2.1)

/-- Correctness of the batched fill loop: starting from a loop state whose
current_run brackets row position + i, the loop terminates within its fuel,
produces exactly to_read rows, and each row carries the value of the run
containing it. -/
lemma rseFillAux_spec {α : Type} {rs : List Nat} {vals : List α}
    {nr position to_read : Nat}
    (hlen : rs.length = vals.length)
    (hpw : List.Pairwise (· < ·) rs)
    (hlen_nr : rs.length ≤ nr)
    (hnr : nr < UINT64_MOD)
    (hslice : position + to_read ≤ nr) :
    ∀ fuel i current_run acc,
      i < to_read →
      to_read - i ≤ fuel →
      current_run < rs.length →
      rs.getD current_run 0 ≤ position + i →
      position + i < rseNextRunStart rs nr current_run →
      acc.length = i →
      (∀ k, k < i → ∀ j, IsRunIndex rs (position + k) j → acc[k]? = vals[j]?) →
      ∃ out, rseFillAux rs vals nr position to_read fuel i current_run acc = some out ∧
        out.length = to_read ∧
        (∀ k, k < to_read → ∀ j, IsRunIndex rs (position + k) j → out[k]? = vals[j]?) := by
  intro fuel
  induction fuel with
  | zero =>
    intro i cr acc hi hfuel _ _ _ _ _
    omega
  | succ fuel ih =>
    intro i cr acc hi hfuel hcr hlow hhigh hacclen hacc
    have hcrv : cr < vals.length := by omega
    have hv : vals[cr]? = some vals[cr] := List.getElem?_eq_getElem hcrv
    rw [rseFillAux, if_pos hi, hv]
    simp only
    rw [u64sub_of_le (Nat.le_of_lt hhigh)]
    have hnext := hhigh
    have hrtf1 : 1 ≤ min (rseNextRunStart rs nr cr - (position + i)) (to_read - i) := by
      omega
    have hrtfA : min (rseNextRunStart rs nr cr - (position + i)) (to_read - i) ≤
        rseNextRunStart rs nr cr - (position + i) := Nat.min_le_left _ _
    have hrtfB : min (rseNextRunStart rs nr cr - (position + i)) (to_read - i) ≤
        to_read - i := Nat.min_le_right _ _
    have hacclen' :
        (acc ++ List.replicate
            (min (rseNextRunStart rs nr cr - (position + i)) (to_read - i)) vals[cr]).length =
          i + min (rseNextRunStart rs nr cr - (position + i)) (to_read - i) := by
      simp [hacclen]
    have hcover : ∀ k,
        k < i + min (rseNextRunStart rs nr cr - (position + i)) (to_read - i) →
        ∀ j, IsRunIndex rs (position + k) j →
        (acc ++ List.replicate
            (min (rseNextRunStart rs nr cr - (position + i)) (to_read - i)) vals[cr])[k]? =
          vals[j]? := by
      intro k hk j hj
      rcases Nat.lt_or_ge k i with hki | hki
      · rw [List.getElem?_append, if_pos (show k < acc.length by omega)]
        exact hacc k hki j hj
      · have hbr : IsRunIndex rs (position + k) cr :=
          @isRunIndex_of_bracket rs nr (position + k) cr hpw hcr (by omega) (by omega) (by omega)
        have hjcr : j = cr := isRunIndex_unique hj hbr
        subst hjcr
        rw [List.getElem?_append, if_neg (show ¬ k < acc.length by omega), hacclen]
        rw [List.getElem?_replicate]
        rw [if_pos (by omega), hv]
    by_cases hcont :
        i + min (rseNextRunStart rs nr cr - (position + i)) (to_read - i) < to_read
    · rw [if_pos hcont]
      have hrtfeq : min (rseNextRunStart rs nr cr - (position + i)) (to_read - i) =
          rseNextRunStart rs nr cr - (position + i) := by omega
      have hposnext :
          position + (i + min (rseNextRunStart rs nr cr - (position + i)) (to_read - i)) =
            rseNextRunStart rs nr cr := by omega
      have hcrM : (cr + 1) % UINT64_MOD = cr + 1 := Nat.mod_eq_of_lt (by omega)
      have hcr1 : cr + 1 < rs.length := by
        by_contra hge
        push_neg at hge
        have hnr2 : rseNextRunStart rs nr cr = nr := by
          rw [rseNextRunStart_eq (by omega), if_neg (by omega)]
        omega
      have hgd1 : rseNextRunStart rs nr cr = rs.getD (cr + 1) 0 := by
        rw [rseNextRunStart_eq (by omega), if_pos hcr1]
      have hlow' : rs.getD (cr + 1) 0 ≤
          position + (i + min (rseNextRunStart rs nr cr - (position + i)) (to_read - i)) := by
        omega
      have hhigh' :
          position + (i + min (rseNextRunStart rs nr cr - (position + i)) (to_read - i)) <
            rseNextRunStart rs nr (cr + 1) := by
        by_cases h2 : cr + 1 + 1 < rs.length
        · rw [@rseNextRunStart_eq rs nr (cr + 1) (by omega), if_pos h2]
          have h3 := getD_lt_getD hpw (show cr + 1 < cr + 1 + 1 by omega) h2
          omega
        · rw [@rseNextRunStart_eq rs nr (cr + 1) (by omega), if_neg h2]
          omega
      rw [hcrM]
      exact ih _ _ _ hcont (by omega) hcr1 hlow' hhigh' hacclen' hcover
    · rw [if_neg hcont]
      have hdone : i + min (rseNextRunStart rs nr cr - (position + i)) (to_read - i) =
          to_read := by omega
      refine ⟨_, rfl, by rw [hacclen', hdone], ?_⟩
      intro k hk j hj
      exact hcover k (by omega) j hj

/-- Every row below num_rows lies in some run (the run found by the binary
search bracketing that row), for a validated nonempty run table. -/
lemma exists_isRunIndex {rs : List Nat} {nr r : Nat}
    (hpw : List.Pairwise (· < ·) rs) (hne : rs ≠ []) (hhead : rs.headD 0 = 0)
    (hlennr : rs.length ≤ nr) (hnr : nr < UINT64_MOD) (hr : r < nr) :
    ∃ j, IsRunIndex rs r j := by
  obtain ⟨hcr, hlow, hhigh⟩ := currentRun_bracket hpw hne hhead hlennr hnr hr
  exact ⟨rseCurrentRun rs r,
    @isRunIndex_of_bracket rs nr r (rseCurrentRun rs r) hpw hcr hlow hhigh (by omega)⟩

/-- Branch behaviour of ScanRSEColumn on a validated nonempty run table and
an in-bounds slice: the constant-vector branch is taken exactly when the
whole slice fits inside the binary-searched run, and the flat branch
otherwise, filling to_read rows with the correct run values. -/
lemma ScanRSEColumn_branches {α : Type} {rs : List Nat} {vals : List α}
    {nr position to_read : Nat}
    (hok : ValidateRSE rs vals.length true nr = .ok ())
    (hne : rs ≠ [])
    (hnr : nr < UINT64_MOD)
    (htr : 1 ≤ to_read)
    (hslice : position + to_read ≤ nr) :
    (position + to_read ≤ rseNextRunStart rs nr (rseCurrentRun rs position) →
      ∃ v, vals[rseCurrentRun rs position]? = some v ∧
        ScanRSEColumn rs vals position to_read nr = some (.constant v)) ∧
    (rseNextRunStart rs nr (rseCurrentRun rs position) < position + to_read →
      ∃ vs, ScanRSEColumn rs vals position to_read nr = some (.flat vs) ∧
        vs.length = to_read ∧
        (∀ k, k < to_read → ∀ j, IsRunIndex rs (position + k) j → vs[k]? = vals[j]?)) := by
  obtain ⟨hlen, hhead, hpw, hallnr, hlennr⟩ := validated_facts hok hne
  have hpos : position < nr := by omega
  obtain ⟨hcr, hlow, hhigh⟩ := currentRun_bracket hpw hne hhead hlennr hnr hpos
  constructor
  · intro hcond
    have hcrv : rseCurrentRun rs position < vals.length := by omega
    refine ⟨vals[rseCurrentRun rs position], List.getElem?_eq_getElem hcrv, ?_⟩
    unfold ScanRSEColumn
    simp only
    rw [u64sub_of_le (Nat.le_of_lt hhigh), if_pos (by omega),
      List.getElem?_eq_getElem hcrv]
  · intro hcond
    unfold ScanRSEColumn
    simp only
    rw [u64sub_of_le (Nat.le_of_lt hhigh), if_neg (by omega)]
    obtain ⟨out, hout, holen, hocov⟩ :=
      rseFillAux_spec hlen hpw hlennr hnr hslice to_read 0 (rseCurrentRun rs position) []
        (by omega) (by omega) hcr (by simpa using hlow) (by simpa using hhigh) rfl
        (by intro k hk; exact absurd hk (by omega))
    rw [hout]
    exact ⟨out, rfl, holen, hocov⟩

/-- Claim C2.  For every RSE column state satisfying the validated invariants
(run_starts begins with 0 — hence nonempty —, strictly ascending, last entry
below num_rows, same length as values; num_rows an hsize_t, so below 2^64)
and every slice [position, position + to_read) contained in [0, num_rows)
with to_read ≥ 1, ScanRSEColumn succeeds and delivers for every row of the
slice (via the constant vector or the flat fill) exactly values[j] where
j = max of all k with run_starts[k] ≤ row. -/
theorem scanRSEColumn_expansion {α : Type} (rs : List Nat) (vals : List α)
    (nr position to_read : Nat)
    (hok : ValidateRSE rs vals.length true nr = .ok ())
    (hne : rs ≠ [])
    (hnr : nr < UINT64_MOD)
    (htr : 1 ≤ to_read)
    (hslice : position + to_read ≤ nr) :
    ∃ out, ScanRSEColumn rs vals position to_read nr = some out ∧
      ∀ k, k < to_read → ∃ j, IsRunIndex rs (position + k) j ∧
        deliveredAt out k = vals[j]? := by
  obtain ⟨hlen, hhead, hpw, hallnr, hlennr⟩ := validated_facts hok hne
  have hpos : position < nr := by omega
  obtain ⟨hcr, hlow, hhigh⟩ := currentRun_bracket hpw hne hhead hlennr hnr hpos
  obtain ⟨hconst, hflat⟩ := ScanRSEColumn_branches hok hne hnr htr hslice
  rcases le_or_lt (position + to_read) (rseNextRunStart rs nr (rseCurrentRun rs position))
    with hcond | hcond
  · obtain ⟨v, hv, hscan⟩ := hconst hcond
    refine ⟨_, hscan, ?_⟩
    intro k hk
    have hbr : IsRunIndex rs (position + k) (rseCurrentRun rs position) :=
      @isRunIndex_of_bracket rs nr (position + k) (rseCurrentRun rs position) hpw hcr
        (by omega) (by omega) (by omega)
    exact ⟨rseCurrentRun rs position, hbr, by rw [deliveredAt, hv]⟩
  · obtain ⟨vs, hscan, hvslen, hvscov⟩ := hflat hcond
    refine ⟨_, hscan, ?_⟩
    intro k hk
    obtain ⟨j, hj⟩ := exists_isRunIndex hpw hne hhead hlennr hnr
      (show position + k < nr by omega)
    exact ⟨j, hj, by rw [deliveredAt]; exact hvscov k hk j hj⟩

/-- Witness for claim C2: run_starts = [0,2], values = [10,20], num_rows = 5,
slice [1,4) spanning both runs. -/
theorem scanRSEColumn_expansion_witness :
    ∃ out, ScanRSEColumn [0, 2] ([10, 20] : List Int) 1 3 5 = some out ∧
      ∀ k, k < 3 → ∃ j, IsRunIndex [0, 2] (1 + k) j ∧
        deliveredAt out k = ([10, 20] : List Int)[j]? :=
  scanRSEColumn_expansion [0, 2] [10, 20] 5 1 3 rfl (by decide)
    (by norm_num [UINT64_MOD]) (by omega) (by omega)

/-- Claim C5 counterexample.  H5ReadInit's validation accepts an RSE column
with an empty run_starts array (every content check is guarded by
num_runs > 0), yet for such a state and the slice position = 0, to_read = 1,
position < num_rows, the run index computed by the binary search is
(0 - 1) in idx_t arithmetic = 2^64 - 1, which is not a valid index into
values (nor run_starts), and ScanRSEColumn's values access is out of
bounds (modelled as none). -/
theorem runLookup_empty_out_of_bounds :
    ValidateRSE [] (([] : List Int).length) true 5 = .ok () ∧
    (0 : Nat) < 5 ∧ (1 : Nat) ≤ 1 ∧
    rseCurrentRun [] 0 = UINT64_MOD - 1 ∧
    ¬ rseCurrentRun [] 0 < ([] : List Int).length ∧
    ScanRSEColumn [] ([] : List Int) 0 1 5 = none := by
  refine ⟨rfl, by omega, by omega, ?_, ?_, rfl⟩
  · rw [rseCurrentRun]
    show (upperBound [] 0 + (UINT64_MOD - 1)) % UINT64_MOD = UINT64_MOD - 1
    rw [upperBound]
    rw [Nat.zero_add, Nat.mod_eq_of_lt (by norm_num [UINT64_MOD])]
  · rw [rseCurrentRun, upperBound]
    simp only [List.length_nil]
    omega

/-- Claim C5 (amended).  For every RSE column state accepted by H5ReadInit's
validation whose run_starts array is nonempty, and every slice with
to_read ≥ 1 and position < num_rows (num_rows < 2^64), the run index computed
by the binary search is a valid index into both run_starts and values, so the
constant-vector access is in bounds; and when additionally the slice stays
inside [0, num_rows) the whole scan (constant or flat path) performs only
in-bounds accesses and succeeds. -/
theorem runLookup_in_bounds {α : Type} (rs : List Nat) (vals : List α)
    (nr position to_read : Nat)
    (hok : ValidateRSE rs vals.length true nr = .ok ())
    (hne : rs ≠ [])
    (hnr : nr < UINT64_MOD)
    (htr : 1 ≤ to_read)
    (hpos : position < nr) :
    rseCurrentRun rs position < rs.length ∧
    rseCurrentRun rs position < vals.length ∧
    (position + to_read ≤ nr →
      ∃ out, ScanRSEColumn rs vals position to_read nr = some out) := by
  obtain ⟨hlen, hhead, hpw, hallnr, hlennr⟩ := validated_facts hok hne
  obtain ⟨hcr, hlow, hhigh⟩ := currentRun_bracket hpw hne hhead hlennr hnr hpos
  refine ⟨hcr, by omega, ?_⟩
  intro hslice
  obtain ⟨hconst, hflat⟩ := ScanRSEColumn_branches hok hne hnr htr hslice
  rcases le_or_lt (position + to_read) (rseNextRunStart rs nr (rseCurrentRun rs position))
    with hcond | hcond
  · obtain ⟨v, _, hscan⟩ := hconst hcond
    exact ⟨_, hscan⟩
  · obtain ⟨vs, hscan, _, _⟩ := hflat hcond
    exact ⟨_, hscan⟩

/-- Witness for the amended claim C5: run_starts = [0,2], values = [10,20],
num_rows = 5, position = 3, to_read = 2. -/
theorem runLookup_in_bounds_witness :
    rseCurrentRun [0, 2] 3 < ([0, 2] : List Nat).length ∧
    rseCurrentRun [0, 2] 3 < ([10, 20] : List Int).length ∧
    ((3 : Nat) + 2 ≤ 5 →
      ∃ out, ScanRSEColumn [0, 2] ([10, 20] : List Int) 3 2 5 = some out) :=
  runLookup_in_bounds [0, 2] [10, 20] 5 3 2 rfl (by decide)
    (by norm_num [UINT64_MOD]) (by omega) (by omega)

/-- Claim C6.  For a validated nonempty RSE column and an in-bounds slice,
with j the run bracketing position (run_starts[j] ≤ position below the next
run's start, or num_rows for the last run): if the whole slice lies inside
run j — the next run start is at least position + to_read — ScanRSEColumn
emits a constant vector holding run j's single value; otherwise it emits a
flat vector of to_read filled rows. -/
theorem scanRSEColumn_constant_fast_path {α : Type} (rs : List Nat) (vals : List α)
    (nr position to_read j : Nat)
    (hok : ValidateRSE rs vals.length true nr = .ok ())
    (hne : rs ≠ [])
    (hnr : nr < UINT64_MOD)
    (htr : 1 ≤ to_read)
    (hslice : position + to_read ≤ nr)
    (hj : j < rs.length)
    (hjle : rs.getD j 0 ≤ position)
    (hjlt : position < rseNextRunStart rs nr j) :
    (position + to_read ≤ rseNextRunStart rs nr j →
      ∃ v, vals[j]? = some v ∧
        ScanRSEColumn rs vals position to_read nr = some (.constant v)) ∧
    (rseNextRunStart rs nr j < position + to_read →
      ∃ vs, ScanRSEColumn rs vals position to_read nr = some (.flat vs) ∧
        vs.length = to_read) := by
  obtain ⟨hlen, hhead, hpw, hallnr, hlennr⟩ := validated_facts hok hne
  have hpos : position < nr := by omega
  obtain ⟨hcr, hlow, hhigh⟩ := currentRun_bracket hpw hne hhead hlennr hnr hpos
  have hjcr : j = rseCurrentRun rs position := by
    have h1 : IsRunIndex rs position j :=
      @isRunIndex_of_bracket rs nr position j hpw hj hjle hjlt (by omega)
    have h2 : IsRunIndex rs position (rseCurrentRun rs position) :=
      @isRunIndex_of_bracket rs nr position (rseCurrentRun rs position) hpw hcr hlow hhigh
        (by omega)
    exact isRunIndex_unique h1 h2
  obtain ⟨hconst, hflat⟩ := ScanRSEColumn_branches hok hne hnr htr hslice
  rw [← hjcr] at hconst hflat
  constructor
  · intro hcond
    exact hconst hcond
  · intro hcond
    obtain ⟨vs, hscan, hvslen, _⟩ := hflat hcond
    exact ⟨vs, hscan, hvslen⟩

/-- Witness for claim C6: for run_starts = [0,2], values = [10,20],
num_rows = 5, slice [2,4) inside run 1 of rows [2,5). -/
theorem scanRSEColumn_constant_fast_path_witness :
    ((2 : Nat) + 2 ≤ rseNextRunStart [0, 2] 5 1 →
      ∃ v, ([10, 20] : List Int)[1]? = some v ∧
        ScanRSEColumn [0, 2] ([10, 20] : List Int) 2 2 5 = some (.constant v)) ∧
    (rseNextRunStart [0, 2] 5 1 < (2 : Nat) + 2 →
      ∃ vs, ScanRSEColumn [0, 2] ([10, 20] : List Int) 2 2 5 = some (.flat vs) ∧
        vs.length = 2) :=
  scanRSEColumn_constant_fast_path [0, 2] [10, 20] 5 2 2 1 rfl (by decide)
    (by norm_num [UINT64_MOD]) (by omega) (by omega) (by decide) (by decide)
    (by norm_num [rseNextRunStart, UINT64_MOD])

lemma scanRegularStringColumn_var_getElem (raw : List (Option String)) (k : Nat) :
    (ScanRegularStringColumn (readVariableStrings raw))[k]? =
      (raw[k]?).map fun o =>
        deliverRegularStringCell (match o with | some s => s | none => "") := by
  unfold ScanRegularStringColumn readVariableStrings
  rw [List.map_map, List.getElem?_map]
  rfl

lemma deliverRegularStringCell_empty : deliverRegularStringCell "" = .null := rfl

lemma deliverRegularStringCell_ne {s : String} (h : s ≠ "") :
    deliverRegularStringCell s = .str s := by
  unfold deliverRegularStringCell
  rw [if_neg]
  intro hempty
  exact h ((String.isEmpty_iff s).mp hempty)

/-- Claim C10.  For a regular string column, a row whose stored string is
empty — a null variable-length pointer, an empty variable-length string, or
a fixed-length entry whose first byte is NUL — is delivered as SQL NULL,
and non-empty strings are delivered verbatim; an RSE string column instead
delivers every run's value, the empty string included, as a string value
(its scan path never produces NULL). -/
theorem emptyString_delivery
    (raw : List (Option String)) (entries : List (List Char))
    (rs : List Nat) (vals : List String) (nr position to_read : Nat)
    (hok : ValidateRSE rs vals.length true nr = .ok ())
    (hne : rs ≠ []) (hnr : nr < UINT64_MOD) (htr : 1 ≤ to_read)
    (hslice : position + to_read ≤ nr) :
    (∀ k : Nat, k < raw.length →
      ((ScanRegularStringColumn (readVariableStrings raw))[k]? = some CellValue.null ↔
        raw[k]? = some none ∨ raw[k]? = some (some ""))) ∧
    (∀ (k : Nat) (s : String), raw[k]? = some (some s) → s ≠ "" →
      (ScanRegularStringColumn (readVariableStrings raw))[k]? = some (.str s)) ∧
    (∀ (k : Nat) (e : List Char), entries[k]? = some e → e.takeWhile (fun c => c ≠ NUL) = [] →
      (ScanRegularStringColumn (readFixedStrings entries))[k]? = some CellValue.null) ∧
    (∃ out, ScanRSEColumn rs vals position to_read nr = some out ∧
      ∀ k, k < to_read → ∃ j s, IsRunIndex rs (position + k) j ∧
        vals[j]? = some s ∧ rseDelivered out k = some (.str s)) := by
  refine ⟨?_, ?_, ?_, ?_⟩
  · intro k hk
    rw [scanRegularStringColumn_var_getElem]
    have hksome : ∃ o, raw[k]? = some o := ⟨raw[k], List.getElem?_eq_getElem hk⟩
    obtain ⟨o, ho⟩ := hksome
    rw [ho]
    cases o with
    | none =>
      constructor
      · intro _; exact Or.inl rfl
      · intro _; rfl
    | some s =>
      rw [Option.map_some']
      by_cases hs : s = ""
      · subst hs
        constructor
        · intro _; exact Or.inr rfl
        · intro _; rfl
      · have hds : deliverRegularStringCell
            (match (some s : Option String) with | some s => s | none => "") =
              CellValue.str s := deliverRegularStringCell_ne hs
        rw [hds]
        constructor
        · intro h
          injection h with h2
          cases h2
        · rintro (h | h)
          · injection h with h2
            cases h2
          · injection h with h2
            injection h2 with h3
            exact absurd h3 hs
  · intro k s hks hs
    rw [scanRegularStringColumn_var_getElem, hks, Option.map_some']
    have hds : deliverRegularStringCell
        (match (some s : Option String) with | some s => s | none => "") =
          CellValue.str s := deliverRegularStringCell_ne hs
    rw [hds]
  · intro k e hke htrunc
    unfold ScanRegularStringColumn readFixedStrings
    rw [List.map_map, List.getElem?_map, hke, Option.map_some']
    show some (deliverRegularStringCell (String.mk (e.takeWhile fun c => c ≠ NUL))) = _
    rw [htrunc]
    rfl
  · obtain ⟨hlen, hhead, hpw, hallnr, hlennr⟩ := validated_facts hok hne
    have hpos : position < nr := by omega
    obtain ⟨hcr, hlow, hhigh⟩ := currentRun_bracket hpw hne hhead hlennr hnr hpos
    obtain ⟨hconst, hflat⟩ := ScanRSEColumn_branches hok hne hnr htr hslice
    rcases le_or_lt (position + to_read) (rseNextRunStart rs nr (rseCurrentRun rs position))
      with hcond | hcond
    · obtain ⟨v, hv, hscan⟩ := hconst hcond
      refine ⟨_, hscan, ?_⟩
      intro k hk
      have hbr : IsRunIndex rs (position + k) (rseCurrentRun rs position) :=
        @isRunIndex_of_bracket rs nr (position + k) (rseCurrentRun rs position) hpw hcr
          (by omega) (by omega) (by omega)
      exact ⟨rseCurrentRun rs position, v, hbr, hv, rfl⟩
    · obtain ⟨vs, hscan, hvslen, hvscov⟩ := hflat hcond
      refine ⟨_, hscan, ?_⟩
      intro k hk
      obtain ⟨j, hj⟩ := exists_isRunIndex hpw hne hhead hlennr hnr
        (show position + k < nr by omega)
      have hjv : j < vals.length := by
        have := hj.1; omega
      refine ⟨j, vals[j], hj, List.getElem?_eq_getElem hjv, ?_⟩
      rw [rseDelivered, deliveredAt, hvscov k hk j hj, List.getElem?_eq_getElem hjv]
      rfl

/-- Witness for claim C10 at raw = [none, some "", some "a"],
entries = [[NUL, x]], RSE column run_starts = [0,2], values = ["", "b"]
(an empty-string run value), num_rows = 5, slice [1,3). -/
theorem emptyString_delivery_witness :
    ((∀ k : Nat, k < ([none, some "", some "a"] : List (Option String)).length →
      ((ScanRegularStringColumn
          (readVariableStrings [none, some "", some "a"]))[k]? = some CellValue.null ↔
        ([none, some "", some "a"] : List (Option String))[k]? = some none ∨
          ([none, some "", some "a"] : List (Option String))[k]? = some (some ""))) ∧
    (∀ (k : Nat) (s : String), ([none, some "", some "a"] : List (Option String))[k]? = some (some s) →
      s ≠ "" →
      (ScanRegularStringColumn
          (readVariableStrings [none, some "", some "a"]))[k]? = some (.str s)) ∧
    (∀ (k : Nat) (e : List Char), ([[NUL, 'x']] : List (List Char))[k]? = some e →
      e.takeWhile (fun c => c ≠ NUL) = [] →
      (ScanRegularStringColumn (readFixedStrings [[NUL, 'x']]))[k]? =
        some CellValue.null) ∧
    (∃ out, ScanRSEColumn [0, 2] ["", "b"] 1 2 5 = some out ∧
      ∀ k, k < 2 → ∃ j s, IsRunIndex [0, 2] (1 + k) j ∧
        (["", "b"] : List String)[j]? = some s ∧
        rseDelivered out k = some (.str s))) :=
  emptyString_delivery [none, some "", some "a"] [[NUL, 'x']] [0, 2] ["", "b"] 5 1 2
    rfl (by decide) (by norm_num [UINT64_MOD]) (by omega) (by omega)

lemma buildRangesAux_cons_open {α : Type} [LinearOrder α]
    (filters : List (ExpressionType × α)) (num_rows : Nat)
    (value : α) (run_start : Nat) (rest : List (α × Nat)) (cs : Nat)
    (hsat : satisfiesAll filters value = true) :
    buildRangesAux filters num_rows ((value, run_start) :: rest) false cs =
      buildRangesAux filters num_rows rest true run_start := by
  rw [buildRangesAux]
  simp [hsat]

lemma buildRangesAux_cons_close {α : Type} [LinearOrder α]
    (filters : List (ExpressionType × α)) (num_rows : Nat)
    (value : α) (run_start : Nat) (rest : List (α × Nat)) (cs : Nat)
    (hsat : satisfiesAll filters value = false) :
    buildRangesAux filters num_rows ((value, run_start) :: rest) true cs =
      ⟨cs, run_start⟩ :: buildRangesAux filters num_rows rest false cs := by
  rw [buildRangesAux]
  simp [hsat]

lemma buildRangesAux_cons_keep_true {α : Type} [LinearOrder α]
    (filters : List (ExpressionType × α)) (num_rows : Nat)
    (value : α) (run_start : Nat) (rest : List (α × Nat)) (cs : Nat)
    (hsat : satisfiesAll filters value = true) :
    buildRangesAux filters num_rows ((value, run_start) :: rest) true cs =
      buildRangesAux filters num_rows rest true cs := by
  rw [buildRangesAux]
  simp [hsat]

lemma buildRangesAux_cons_keep_false {α : Type} [LinearOrder α]
    (filters : List (ExpressionType × α)) (num_rows : Nat)
    (value : α) (run_start : Nat) (rest : List (α × Nat)) (cs : Nat)
    (hsat : satisfiesAll filters value = false) :
    buildRangesAux filters num_rows ((value, run_start) :: rest) false cs =
      buildRangesAux filters num_rows rest false cs := by
  rw [buildRangesAux]
  simp [hsat]

/-- The run-scan state machine produces a sorted disjoint list of nonempty
ranges bounded by num_rows, given strictly increasing run starts below
num_rows. -/
lemma buildRangesAux_wf {α : Type} [LinearOrder α]
    (filters : List (ExpressionType × α)) (num_rows : Nat) :
    ∀ (pairs : List (α × Nat)) (in_range : Bool) (cs lb : Nat),
      List.Pairwise (· < ·) (pairs.map Prod.snd) →
      (∀ p ∈ pairs, p.2 < num_rows) →
      (in_range = true → cs < num_rows ∧ lb ≤ cs ∧ ∀ p ∈ pairs, cs < p.2) →
      (in_range = false → ∀ p ∈ pairs, lb ≤ p.2) →
      ((buildRangesAux filters num_rows pairs in_range cs).Pairwise
          (fun p q => p.end_row ≤ q.start_row) ∧
        ∀ r ∈ buildRangesAux filters num_rows pairs in_range cs,
          r.start_row < r.end_row ∧ r.end_row ≤ num_rows ∧ lb ≤ r.start_row) := by
  intro pairs
  induction pairs with
  | nil =>
    intro in_range cs lb _ _ htrue _
    cases in_range with
    | false =>
      rw [buildRangesAux]
      exact ⟨by simp, by intro r hr; simp at hr⟩
    | true =>
      rw [buildRangesAux]
      rcases htrue rfl with ⟨h1, h2, _⟩
      refine ⟨by simp, ?_⟩
      intro r hr
      simp at hr
      subst hr
      exact ⟨h1, Nat.le_refl _, h2⟩
  | cons p rest ih =>
    rcases p with ⟨value, run_start⟩
    intro in_range cs lb hpw hlt htrue hfalse
    rw [List.map_cons] at hpw
    have hpwc := List.pairwise_cons.mp hpw
    have hpw' : List.Pairwise (· < ·) (rest.map Prod.snd) := hpwc.2
    have hheadlt : ∀ q ∈ rest, run_start < q.2 := by
      intro q hq
      exact hpwc.1 q.2 (List.mem_map_of_mem _ hq)
    have hlt' : ∀ q ∈ rest, q.2 < num_rows := fun q hq => hlt q (List.mem_cons_of_mem _ hq)
    have hrslt : run_start < num_rows := hlt ⟨value, run_start⟩ (List.mem_cons_self _ _)
    cases hsat : satisfiesAll filters value with
    | true =>
      cases in_range with
      | false =>
        rw [buildRangesAux_cons_open filters num_rows value run_start rest cs hsat]
        have hlbrs : lb ≤ run_start :=
          hfalse rfl ⟨value, run_start⟩ (List.mem_cons_self _ _)
        exact ih true run_start lb hpw' hlt'
          (fun _ => ⟨hrslt, hlbrs, hheadlt⟩) (by intro h; cases h)
      | true =>
        rw [buildRangesAux_cons_keep_true filters num_rows value run_start rest cs hsat]
        rcases htrue rfl with ⟨h1, h2, h3⟩
        exact ih true cs lb hpw' hlt'
          (fun _ => ⟨h1, h2, fun q hq => h3 q (List.mem_cons_of_mem _ hq)⟩)
          (by intro h; cases h)
    | false =>
      cases in_range with
      | false =>
        rw [buildRangesAux_cons_keep_false filters num_rows value run_start rest cs hsat]
        exact ih false cs lb hpw' hlt' (by intro h; cases h)
          (fun _ q hq => hfalse rfl q (List.mem_cons_of_mem _ hq))
      | true =>
        rw [buildRangesAux_cons_close filters num_rows value run_start rest cs hsat]
        rcases htrue rfl with ⟨h1, h2, h3⟩
        have hcsrs : cs < run_start := h3 ⟨value, run_start⟩ (List.mem_cons_self _ _)
        obtain ⟨ihp, ihm⟩ := ih false cs run_start hpw' hlt' (by intro h; cases h)
          (fun _ q hq => Nat.le_of_lt (hheadlt q hq))
        constructor
        · rw [List.pairwise_cons]
          refine ⟨?_, ihp⟩
          intro r hr
          exact (ihm r hr).2.2
        · intro r hr
          rcases List.mem_cons.mp hr with rfl | hr
          · exact ⟨hcsrs, Nat.le_of_lt hrslt, h2⟩
          · rcases ihm r hr with ⟨g1, g2, g3⟩
            exact ⟨g1, g2, by omega⟩

lemma intersect_subset_left : ∀ (a b : List RowRange), ∀ r ∈ IntersectRowRanges a b,
    ∃ ra ∈ a, ra.start_row ≤ r.start_row ∧ r.end_row ≤ ra.end_row := by
  intro a
  induction a with
  | nil =>
    intro b r hr
    rw [IntersectRowRanges] at hr
    cases hr
  | cons x xs ihx =>
    intro b
    induction b with
    | nil =>
      intro r hr
      rw [IntersectRowRanges] at hr
      cases hr
    | cons y ys ihy =>
      intro r hr
      rw [IntersectRowRanges] at hr
      by_cases hxy : x.end_row < y.end_row <;> simp only [hxy, if_true, if_false] at hr
      all_goals
        by_cases hse : max x.start_row y.start_row < min x.end_row y.end_row <;>
          simp only [hse, if_true, if_false] at hr
      · rcases List.mem_cons.mp hr with rfl | hr
        · exact ⟨x, List.mem_cons_self _ _, Nat.le_max_left _ _, Nat.min_le_left _ _⟩
        · obtain ⟨ra, hra, h1, h2⟩ := ihx (y :: ys) r hr
          exact ⟨ra, List.mem_cons_of_mem _ hra, h1, h2⟩
      · obtain ⟨ra, hra, h1, h2⟩ := ihx (y :: ys) r hr
        exact ⟨ra, List.mem_cons_of_mem _ hra, h1, h2⟩
      · rcases List.mem_cons.mp hr with rfl | hr
        · exact ⟨x, List.mem_cons_self _ _, Nat.le_max_left _ _, Nat.min_le_left _ _⟩
        · exact ihy r hr
      · exact ihy r hr

lemma intersect_subset_right : ∀ (a b : List RowRange), ∀ r ∈ IntersectRowRanges a b,
    ∃ rb ∈ b, rb.start_row ≤ r.start_row ∧ r.end_row ≤ rb.end_row := by
  intro a
  induction a with
  | nil =>
    intro b r hr
    rw [IntersectRowRanges] at hr
    cases hr
  | cons x xs ihx =>
    intro b
    induction b with
    | nil =>
      intro r hr
      rw [IntersectRowRanges] at hr
      cases hr
    | cons y ys ihy =>
      intro r hr
      rw [IntersectRowRanges] at hr
      by_cases hxy : x.end_row < y.end_row <;> simp only [hxy, if_true, if_false] at hr
      all_goals
        by_cases hse : max x.start_row y.start_row < min x.end_row y.end_row <;>
          simp only [hse, if_true, if_false] at hr
      · rcases List.mem_cons.mp hr with rfl | hr
        · exact ⟨y, List.mem_cons_self _ _, Nat.le_max_right _ _, Nat.min_le_right _ _⟩
        · exact ihx (y :: ys) r hr
      · exact ihx (y :: ys) r hr
      · rcases List.mem_cons.mp hr with rfl | hr
        · exact ⟨y, List.mem_cons_self _ _, Nat.le_max_right _ _, Nat.min_le_right _ _⟩
        · obtain ⟨rb, hrb, h1, h2⟩ := ihy r hr
          exact ⟨rb, List.mem_cons_of_mem _ hrb, h1, h2⟩
      · obtain ⟨rb, hrb, h1, h2⟩ := ihy r hr
        exact ⟨rb, List.mem_cons_of_mem _ hrb, h1, h2⟩

/-- Merge-based intersection of two sorted disjoint range lists is sorted and
disjoint, and every emitted range is nonempty. -/
lemma intersect_wf : ∀ (a b : List RowRange),
    a.Pairwise (fun p q => p.end_row ≤ q.start_row) →
    b.Pairwise (fun p q => p.end_row ≤ q.start_row) →
    ((IntersectRowRanges a b).Pairwise (fun p q => p.end_row ≤ q.start_row) ∧
      ∀ r ∈ IntersectRowRanges a b, r.start_row < r.end_row) := by
  intro a
  induction a with
  | nil =>
    intro b _ _
    rw [IntersectRowRanges]
    exact ⟨List.Pairwise.nil, by intro r hr; cases hr⟩
  | cons x xs ihx =>
    intro b
    induction b with
    | nil =>
      intro _ _
      rw [IntersectRowRanges]
      exact ⟨List.Pairwise.nil, by intro r hr; cases hr⟩
    | cons y ys ihy =>
      intro ha hb
      have hax := (List.pairwise_cons.mp ha).1
      have ha' := (List.pairwise_cons.mp ha).2
      have hby := (List.pairwise_cons.mp hb).1
      have hb' := (List.pairwise_cons.mp hb).2
      rw [IntersectRowRanges]
      by_cases hxy : x.end_row < y.end_row <;> simp only [hxy, if_true, if_false]
      · obtain ⟨ihp, ihm⟩ := ihx (y :: ys) ha' hb
        by_cases hse : max x.start_row y.start_row < min x.end_row y.end_row <;>
          simp only [hse, if_true, if_false]
        · constructor
          · rw [List.pairwise_cons]
            refine ⟨?_, ihp⟩
            intro r hr
            obtain ⟨ra, hra, h1, _⟩ := intersect_subset_left xs (y :: ys) r hr
            have := hax ra hra
            simp only
            omega
          · intro r hr
            rcases List.mem_cons.mp hr with rfl | hr
            · exact hse
            · exact ihm r hr
        · exact ⟨ihp, ihm⟩
      · obtain ⟨ihp, ihm⟩ := ihy ha hb'
        by_cases hse : max x.start_row y.start_row < min x.end_row y.end_row <;>
          simp only [hse, if_true, if_false]
        · constructor
          · rw [List.pairwise_cons]
            refine ⟨?_, ihp⟩
            intro r hr
            obtain ⟨rb, hrb, h1, _⟩ := intersect_subset_right (x :: xs) ys r hr
            have := hby rb hrb
            simp only
            omega
          · intro r hr
            rcases List.mem_cons.mp hr with rfl | hr
            · exact hse
            · exact ihm r hr
        · exact ⟨ihp, ihm⟩

/-- Per-column planner output is sorted and disjoint for a validated RSE
column. -/
lemma buildColRanges_wf {α : Type} [LinearOrder α] {num_rows : Nat}
    (col : RSEFilterColumn α)
    (hok : ValidateRSE col.run_starts col.values.length true num_rows = .ok ()) :
    (buildColRanges num_rows col).Pairwise (fun p q => p.end_row ≤ q.start_row) := by
  by_cases hne : col.run_starts = []
  · unfold buildColRanges
    rw [hne, List.zip_nil_right, buildRangesAux]
    simp
  · obtain ⟨hlen, hhead, hpw, hallnr, hlennr⟩ := validated_facts hok hne
    have hmapsnd : (col.values.zip col.run_starts).map Prod.snd = col.run_starts :=
      List.map_snd_zip _ _ (by omega)
    have hltall : ∀ p ∈ col.values.zip col.run_starts, p.2 < num_rows := by
      intro p hp
      have hmem : p.2 ∈ col.run_starts := by
        rw [← hmapsnd]
        exact List.mem_map_of_mem _ hp
      obtain ⟨i, hi, hx⟩ := List.mem_iff_getElem.mp hmem
      rw [← getD_eq_getElem0 _ _ hi] at hx
      rw [← hx]
      exact hallnr i hi
    exact (buildRangesAux_wf col.filters num_rows (col.values.zip col.run_starts) false 0 0
      (by rw [hmapsnd]; exact hpw) hltall (by intro h; cases h)
      (fun _ q _ => Nat.zero_le _)).1

/-- The planner fold keeps the accumulated list sorted, disjoint, and
bounded by num_rows. -/
lemma planRanges_foldl_wf {α : Type} [LinearOrder α] (num_rows : Nat) :
    ∀ (cols : List (RSEFilterColumn α)) (acc : List RowRange),
      acc.Pairwise (fun p q => p.end_row ≤ q.start_row) →
      (∀ r ∈ acc, r.end_row ≤ num_rows ∧ r.start_row ≤ r.end_row) →
      (∀ c ∈ cols, ValidateRSE c.run_starts c.values.length true num_rows = .ok ()) →
      ((cols.foldl
            (fun ranges col => IntersectRowRanges ranges (buildColRanges num_rows col))
            acc).Pairwise (fun p q => p.end_row ≤ q.start_row) ∧
        ∀ r ∈ cols.foldl
            (fun ranges col => IntersectRowRanges ranges (buildColRanges num_rows col)) acc,
          r.end_row ≤ num_rows ∧ r.start_row ≤ r.end_row) := by
  intro cols
  induction cols with
  | nil =>
    intro acc hp hb _
    exact ⟨hp, hb⟩
  | cons c rest ih =>
    intro acc hp hb hok
    rw [List.foldl_cons]
    have hcol := buildColRanges_wf c (hok c (List.mem_cons_self _ _))
    obtain ⟨hip, him⟩ := intersect_wf acc (buildColRanges num_rows c) hp hcol
    refine ih _ hip ?_ (fun d hd => hok d (List.mem_cons_of_mem _ hd))
    intro r hr
    obtain ⟨ra, hra, h1, h2⟩ := intersect_subset_left acc (buildColRanges num_rows c) r hr
    have := hb ra hra
    have := him r hr
    exact ⟨by omega, by omega⟩

/-- Claim C3.  For every bind record and every set of claimed filters on
validated RSE columns, the valid_row_ranges list produced at Init — the
per-column run scan intersected column by column into the initial list
[{0, num_rows}] — is sorted by start position, pairwise disjoint, and every
range is contained in [0, num_rows); with no claimed filters the result is
exactly [{0, num_rows}]. -/
theorem planRanges_sorted_disjoint {α : Type} [LinearOrder α]
    (num_rows : Nat) (cols : List (RSEFilterColumn α))
    (hcols : ∀ c ∈ cols, ValidateRSE c.run_starts c.values.length true num_rows = .ok ()) :
    ((planRanges num_rows cols).Pairwise fun p q => p.start_row ≤ q.start_row) ∧
    ((planRanges num_rows cols).Pairwise fun p q => ∀ n, ¬(inRange n p ∧ inRange n q)) ∧
    (∀ r ∈ planRanges num_rows cols, ∀ n, inRange n r → n < num_rows) ∧
    (cols = [] → planRanges num_rows cols = [⟨0, num_rows⟩]) := by
  obtain ⟨hp, hm⟩ := planRanges_foldl_wf num_rows cols [⟨0, num_rows⟩]
    (by simp) (by intro r hr; simp at hr; subst hr; exact ⟨Nat.le_refl _, Nat.zero_le _⟩)
    hcols
  refine ⟨?_, ?_, ?_, ?_⟩
  · refine List.Pairwise.imp_of_mem ?_ hp
    intro p q hpmem _ hle
    have := hm p hpmem
    omega
  · refine hp.imp ?_
    intro p q hle n hn
    rcases hn with ⟨⟨_, h1⟩, ⟨h2, _⟩⟩
    omega
  · intro r hr n hn
    have := hm r hr
    rcases hn with ⟨_, h2⟩
    omega
  · intro h
    rw [h]
    rfl

/-- Witness for claim C3: one Int RSE column with values [3,7],
run_starts [0,2], the single claimed filter col > 4, and num_rows = 5. -/
theorem planRanges_sorted_disjoint_witness :
    ((planRanges 5 [⟨[3, 7], [0, 2], [(.COMPARE_GREATERTHAN, (4 : Int))]⟩]).Pairwise
        fun p q => p.start_row ≤ q.start_row) ∧
    ((planRanges 5 [⟨[3, 7], [0, 2], [(.COMPARE_GREATERTHAN, (4 : Int))]⟩]).Pairwise
        fun p q => ∀ n, ¬(inRange n p ∧ inRange n q)) ∧
    (∀ r ∈ planRanges 5 [⟨[3, 7], [0, 2], [(.COMPARE_GREATERTHAN, (4 : Int))]⟩],
      ∀ n, inRange n r → n < 5) ∧
    (([⟨[3, 7], [0, 2], [(.COMPARE_GREATERTHAN, (4 : Int))]⟩] :
        List (RSEFilterColumn Int)) = [] →
      planRanges 5 [⟨[3, 7], [0, 2], [(.COMPARE_GREATERTHAN, (4 : Int))]⟩] =
        [⟨0, 5⟩]) :=
  planRanges_sorted_disjoint 5 [⟨[3, 7], [0, 2], [(.COMPARE_GREATERTHAN, (4 : Int))]⟩]
    (by
      intro c hc
      rcases List.mem_singleton.mp hc with rfl
      rfl)

lemma RDisj_symm {a b : Nat × Nat} (h : RDisj a b) : RDisj b a := h.symm

lemma lookupStart_eq_none_iff : ∀ (k : Nat) (l : List (Nat × Nat)),
    lookupStart k l = none ↔ ∀ p ∈ l, p.1 ≠ k
  | _, [] => by simp [lookupStart]
  | k, (s, e) :: rest => by
    rw [lookupStart]
    split_ifs with hs
    · subst hs
      simp
    · rw [lookupStart_eq_none_iff k rest]
      constructor
      · intro h p hp
        rcases List.mem_cons.mp hp with rfl | hp
        · exact hs
        · exact h p hp
      · intro h p hp
        exact h p (List.mem_cons_of_mem _ hp)

lemma lookupStart_eq_some_mem : ∀ {k e : Nat} {l : List (Nat × Nat)},
    lookupStart k l = some e → (k, e) ∈ l := by
  intro k e l
  induction l with
  | nil => intro h; cases h
  | cons p rest ih =>
    rcases p with ⟨s, e'⟩
    rw [lookupStart]
    split_ifs with hs
    · intro h
      injection h with h2
      subst hs; subst h2
      exact List.mem_cons_self _ _
    · intro h
      exact List.mem_cons_of_mem _ (ih h)

lemma eraseStart_sublist : ∀ (k : Nat) (l : List (Nat × Nat)),
    (eraseStart k l).Sublist l
  | _, [] => List.Sublist.refl []
  | k, (s, e) :: rest => by
    rw [eraseStart]
    split_ifs with hs
    · exact List.sublist_cons_self _ _
    · exact List.Sublist.cons₂ _ (eraseStart_sublist k rest)

lemma eraseStart_length_lt : ∀ {k e : Nat} {l : List (Nat × Nat)},
    lookupStart k l = some e → (eraseStart k l).length < l.length := by
  intro k e l
  induction l with
  | nil => intro h; cases h
  | cons p rest ih =>
    rcases p with ⟨s, e'⟩
    rw [lookupStart, eraseStart]
    split_ifs with hs
    · intro _; simp
    · intro h
      simpa using ih h

lemma eraseStart_disj : ∀ (l : List (Nat × Nat)) (k e : Nat),
    l.Pairwise RDisj → lookupStart k l = some e →
    ∀ r ∈ eraseStart k l, RDisj (k, e) r := by
  intro l
  induction l with
  | nil => intro k e _ h; cases h
  | cons p rest ih =>
    rcases p with ⟨s, e'⟩
    intro k e hpw hlk
    rw [lookupStart] at hlk
    rw [eraseStart]
    rcases List.pairwise_cons.mp hpw with ⟨hhead, hpw'⟩
    split_ifs at hlk ⊢ with hs
    · injection hlk with h2
      subst hs; subst h2
      exact hhead
    · intro r hr
      rcases List.mem_cons.mp hr with rfl | hr
      · exact RDisj_symm (hhead _ (lookupStart_eq_some_mem hlk))
      · exact ih k e hpw' hlk r hr

/-- The merge loop of H5ReadScan folds every contiguous parked completion
into position_done, never decreases it, and keeps the invariant: the rows
below position_done are exactly the union of a set of processed reports, and
every still-parked completion starts strictly after position_done. -/
lemma foldCompletedAux_spec (pool : List (Nat × Nat)) :
    ∀ (fuel : Nat) (parked : List (Nat × Nat)) (d : Nat) (S : List (Nat × Nat)),
      parked.length ≤ fuel →
      (∀ n, n < d ↔ coveredBy S n) →
      (∀ r ∈ S, r ∈ pool) →
      (∀ r ∈ parked, r ∈ pool) →
      (∀ r ∈ parked, d ≤ r.1 ∧ r.1 < r.2) →
      parked.Pairwise RDisj →
      ∃ S2,
        d ≤ (foldCompletedAux fuel d parked).1 ∧
        (∀ n, n < (foldCompletedAux fuel d parked).1 ↔ coveredBy S2 n) ∧
        (∀ r ∈ S2, r ∈ pool) ∧
        (∀ r ∈ (foldCompletedAux fuel d parked).2, r ∈ pool) ∧
        (∀ r ∈ (foldCompletedAux fuel d parked).2,
          (foldCompletedAux fuel d parked).1 < r.1 ∧ r.1 < r.2) ∧
        (foldCompletedAux fuel d parked).2.Pairwise RDisj := by
  intro fuel
  induction fuel with
  | zero =>
    intro parked d S hfuel hcov hSm hPm hPinv hPpw
    have hnil : parked = [] := List.eq_nil_of_length_eq_zero (by omega)
    subst hnil
    rw [foldCompletedAux]
    refine ⟨S, Nat.le_refl _, hcov, hSm, ?_, ?_, ?_⟩
    · intro r hr; cases hr
    · intro r hr; cases hr
    · exact List.Pairwise.nil
  | succ fuel ih =>
    intro parked d S hfuel hcov hSm hPm hPinv hPpw
    cases hlk : lookupStart d parked with
    | none =>
      have hres : foldCompletedAux (fuel + 1) d parked = (d, parked) := by
        rw [foldCompletedAux, hlk]
      rw [hres]
      refine ⟨S, Nat.le_refl _, hcov, hSm, hPm, ?_, hPpw⟩
      intro r hr
      have h1 := hPinv r hr
      have h2 := (lookupStart_eq_none_iff d parked).mp hlk r hr
      show d < r.1 ∧ r.1 < r.2
      omega
    | some e =>
      have hres : foldCompletedAux (fuel + 1) d parked =
          foldCompletedAux fuel e (eraseStart d parked) := by
        rw [foldCompletedAux, hlk]
      rw [hres]
      have hmem : (d, e) ∈ parked := lookupStart_eq_some_mem hlk
      have hde : d < e := by
        have := hPinv _ hmem
        simpa using this.2
      have hcov' : ∀ n, n < e ↔ coveredBy (S ++ [(d, e)]) n := by
        intro n
        rw [coveredBy]
        constructor
        · intro hn
          rcases Nat.lt_or_ge n d with hnd | hnd
          · obtain ⟨r, hr, h1, h2⟩ := (hcov n).mp hnd
            exact ⟨r, List.mem_append_left _ hr, h1, h2⟩
          · exact ⟨(d, e), List.mem_append_right _ (List.mem_singleton.mpr rfl), hnd, hn⟩
        · rintro ⟨r, hr, h1, h2⟩
          rcases List.mem_append.mp hr with hr | hr
          · have := (hcov n).mpr ⟨r, hr, h1, h2⟩
            omega
          · rcases List.mem_singleton.mp hr with rfl
            exact h2
      have hdisj := eraseStart_disj parked d e hPpw hlk
      have hsub := eraseStart_sublist d parked
      obtain ⟨S2, g1, g2, g3, g4, g5, g6⟩ := ih (eraseStart d parked) e (S ++ [(d, e)])
        (by have := eraseStart_length_lt hlk; omega)
        hcov'
        (by
          intro r hr
          rcases List.mem_append.mp hr with hr | hr
          · exact hSm r hr
          · rcases List.mem_singleton.mp hr with rfl
            exact hPm _ hmem)
        (fun r hr => hPm r (hsub.mem hr))
        (by
          intro r hr
          have h1 := hPinv r (hsub.mem hr)
          have h2 := hdisj r hr
          rcases h2 with h2 | h2
          · exact ⟨by simpa using h2, h1.2⟩
          · simp only at h2
            omega)
        (hPpw.sublist hsub)
      exact ⟨S2, by omega, g2, g3, g4, g5, g6⟩

/-- One completion report preserves the driver invariant and never decreases
position_done, provided the report is a fresh nonempty interval disjoint
from every interval already accounted for. -/
lemma reportCompletion_spec (pool : List (Nat × Nat)) (st : DriverDoneState)
    (S : List (Nat × Nat)) (pos e : Nat)
    (hScov : ∀ n, n < st.position_done ↔ coveredBy S n)
    (hSmem : ∀ r ∈ S, r ∈ pool)
    (hPmem : ∀ r ∈ st.completed_ranges, r ∈ pool)
    (hPinv : ∀ r ∈ st.completed_ranges, st.position_done < r.1 ∧ r.1 < r.2)
    (hPpw : st.completed_ranges.Pairwise RDisj)
    (hnew : (pos, e) ∈ pool)
    (hlt : pos < e)
    (hdisjS : ∀ r ∈ S, RDisj (pos, e) r)
    (hdisjP : ∀ r ∈ st.completed_ranges, RDisj (pos, e) r) :
    ∃ S2,
      st.position_done ≤ (reportCompletion st pos e).position_done ∧
      (∀ n, n < (reportCompletion st pos e).position_done ↔ coveredBy S2 n) ∧
      (∀ r ∈ S2, r ∈ pool) ∧
      (∀ r ∈ (reportCompletion st pos e).completed_ranges, r ∈ pool) ∧
      (∀ r ∈ (reportCompletion st pos e).completed_ranges,
        (reportCompletion st pos e).position_done < r.1 ∧ r.1 < r.2) ∧
      (reportCompletion st pos e).completed_ranges.Pairwise RDisj := by
  rw [reportCompletion]
  split_ifs with hpos
  · have hcov' : ∀ n, n < e ↔ coveredBy (S ++ [(pos, e)]) n := by
      intro n
      rw [coveredBy]
      constructor
      · intro hn
        rcases Nat.lt_or_ge n pos with hnd | hnd
        · obtain ⟨r, hr, h1, h2⟩ := (hScov n).mp (by omega)
          exact ⟨r, List.mem_append_left _ hr, h1, h2⟩
        · exact ⟨(pos, e), List.mem_append_right _ (List.mem_singleton.mpr rfl), hnd, hn⟩
      · rintro ⟨r, hr, h1, h2⟩
        rcases List.mem_append.mp hr with hr | hr
        · have := (hScov n).mpr ⟨r, hr, h1, h2⟩
          omega
        · rcases List.mem_singleton.mp hr with rfl
          exact h2
    obtain ⟨S2, g1, g2, g3, g4, g5, g6⟩ :=
      foldCompletedAux_spec pool st.completed_ranges.length st.completed_ranges e
        (S ++ [(pos, e)])
        (Nat.le_refl _)
        hcov'
        (by
          intro r hr
          rcases List.mem_append.mp hr with hr | hr
          · exact hSmem r hr
          · rcases List.mem_singleton.mp hr with rfl
            exact hnew)
        hPmem
        (by
          intro r hr
          have h1 := hPinv r hr
          have h2 := hdisjP r hr
          rcases h2 with h2 | h2
          · exact ⟨by simpa using h2, h1.2⟩
          · simp only at h2
            omega)
        hPpw
    refine ⟨S2, ?_, g2, g3, g4, g5, g6⟩
    show st.position_done ≤
      (foldCompletedAux st.completed_ranges.length e st.completed_ranges).1
    omega
  · have hdp : st.position_done < pos := by
      rcases Nat.lt_or_ge pos st.position_done with hc | hc
      · exfalso
        obtain ⟨r, hr, h1, h2⟩ := (hScov pos).mp hc
        rcases hdisjS r hr with h3 | h3
        · simp only at h3
          omega
        · simp only at h3
          omega
      · omega
    refine ⟨S, Nat.le_refl _, hScov, hSmem, ?_, ?_, ?_⟩
    · intro r hr
      rcases List.mem_cons.mp hr with rfl | hr
      · exact hnew
      · exact hPmem r hr
    · intro r hr
      rcases List.mem_cons.mp hr with rfl | hr
      · exact ⟨hdp, hlt⟩
      · exact hPinv r hr
    · rw [List.pairwise_cons]
      exact ⟨hdisjP, hPpw⟩

/-- The driver invariant holds after processing any sequence of disjoint
nonempty completion reports. -/
lemma processReports_invariant (reports : List (Nat × Nat))
    (hval : ∀ r ∈ reports, r.1 < r.2)
    (hdisj : reports.Pairwise RDisj) :
    ∃ S, (∀ r ∈ S, r ∈ reports) ∧
      (∀ n, n < (processReports reports).position_done ↔ coveredBy S n) ∧
      (∀ r ∈ (processReports reports).completed_ranges, r ∈ reports) ∧
      (∀ r ∈ (processReports reports).completed_ranges,
        (processReports reports).position_done < r.1 ∧ r.1 < r.2) ∧
      (processReports reports).completed_ranges.Pairwise RDisj := by
  induction reports using List.reverseRecOn with
  | nil =>
    refine ⟨[], by simp, ?_, ?_, ?_, ?_⟩ <;>
      simp [processReports, coveredBy]
  | append_singleton l r ihl =>
    have hvall : ∀ p ∈ l, p.1 < p.2 := fun p hp => hval p (List.mem_append_left _ hp)
    have hdisjl : l.Pairwise RDisj := hdisj.sublist (List.sublist_append_left _ _)
    have hdisjr : ∀ p ∈ l, RDisj p r := by
      intro p hp
      rcases List.pairwise_append.mp hdisj with ⟨_, _, hcross⟩
      exact hcross p hp r (List.mem_singleton.mpr rfl)
    obtain ⟨S, i1, i2, i3, i4, i5⟩ := ihl hvall hdisjl
    have hstep : processReports (l ++ [r]) =
        reportCompletion (processReports l) r.1 r.2 := by
      rw [processReports, processReports, List.foldl_append, List.foldl_cons, List.foldl_nil]
    obtain ⟨S2, g1, g2, g3, g4, g5, g6⟩ :=
      reportCompletion_spec (l ++ [r]) (processReports l) S r.1 r.2
        i2
        (fun p hp => List.mem_append_left _ (i1 p hp))
        (fun p hp => List.mem_append_left _ (i3 p hp))
        i4 i5
        (by
          rw [show ((r.1, r.2) : Nat × Nat) = r from rfl]
          exact List.mem_append_right _ (List.mem_singleton.mpr rfl))
        (hval r (List.mem_append_right _ (List.mem_singleton.mpr rfl)))
        (fun p hp => RDisj_symm (hdisjr p (i1 p hp)))
        (fun p hp => RDisj_symm (hdisjr p (i3 p hp)))
    rw [hstep]
    exact ⟨S2, g3, g2, g4, g5, g6⟩

/-- Claim C9.  Across any sequence of completion reports of disjoint
nonempty slices handed out by the driver, position_done never decreases (a
contiguous completion advances it and folds in newly contiguous parked
completions; a non-contiguous completion is parked keyed by its start), and
at all times [0, position_done) is exactly the union of a set of completed
slices — a prefix-closed set, since that union is the initial segment below
position_done. -/
theorem positionDone_low_water_mark (reports : List (Nat × Nat))
    (hval : ∀ r ∈ reports, r.1 < r.2)
    (hdisj : reports.Pairwise RDisj) :
    (∀ k : Nat,
      (processReports (reports.take k)).position_done ≤
        (processReports (reports.take (k + 1))).position_done) ∧
    ∃ S, (∀ r ∈ S, r ∈ reports) ∧
      ∀ n, n < (processReports reports).position_done ↔ coveredBy S n := by
  constructor
  · intro k
    rcases Nat.lt_or_ge k reports.length with hk | hk
    · have htake : reports.take (k + 1) = reports.take k ++ [reports[k]] := by
        rw [List.take_succ, List.getElem?_eq_getElem hk]
        rfl
      have hvalk : ∀ p ∈ reports.take k, p.1 < p.2 :=
        fun p hp => hval p (List.mem_of_mem_take hp)
      have hdisjk : (reports.take k).Pairwise RDisj :=
        hdisj.sublist (List.take_sublist _ _)
      have hdisjr : ∀ p ∈ reports.take k, RDisj p reports[k] := by
        intro p hp
        obtain ⟨i, hi, hpi⟩ := List.mem_iff_getElem.mp hp
        have hilen : i < reports.length := by
          have := List.length_take_le k reports
          omega
        have hik : i < k := by
          have := List.length_take k reports
          omega
        rw [← hpi, List.getElem_take]
        exact List.pairwise_iff_getElem.mp hdisj i k hilen hk hik
      obtain ⟨S, i1, i2, i3, i4, i5⟩ := processReports_invariant _ hvalk hdisjk
      have hstep : processReports (reports.take k ++ [reports[k]]) =
          reportCompletion (processReports (reports.take k)) reports[k].1 reports[k].2 := by
        rw [processReports, processReports, List.foldl_append, List.foldl_cons, List.foldl_nil]
      obtain ⟨S2, g1, _⟩ :=
        reportCompletion_spec (reports.take k ++ [reports[k]])
          (processReports (reports.take k)) S reports[k].1 reports[k].2
          i2
          (fun p hp => List.mem_append_left _ (i1 p hp))
          (fun p hp => List.mem_append_left _ (i3 p hp))
          i4 i5
          (by
            rw [show ((reports[k].1, reports[k].2) : Nat × Nat) = reports[k] from rfl]
            exact List.mem_append_right _ (List.mem_singleton.mpr rfl))
          (hval reports[k] (List.getElem_mem hk))
          (fun p hp => RDisj_symm (hdisjr p (i1 p hp)))
          (fun p hp => RDisj_symm (hdisjr p (i3 p hp)))
      rw [htake, hstep]
      exact g1
    · have h1 : reports.take k = reports := List.take_of_length_le hk
      have h2 : reports.take (k + 1) = reports := List.take_of_length_le (by omega)
      rw [h1, h2]
  · obtain ⟨S, i1, i2, _⟩ := processReports_invariant reports hval hdisj
    exact ⟨S, i1, i2⟩

/-- Witness for claim C9 at the out-of-order completion sequence
[(0,2), (4,6), (2,4)]: slices handed out in order but completed with (4,6)
arriving before (2,4). -/
theorem positionDone_low_water_mark_witness :
    (∀ k : Nat,
      (processReports ([(0, 2), (4, 6), (2, 4)].take k)).position_done ≤
        (processReports ([(0, 2), (4, 6), (2, 4)].take (k + 1))).position_done) ∧
    ∃ S, (∀ r ∈ S, r ∈ [((0 : Nat), (2 : Nat)), (4, 6), (2, 4)]) ∧
      ∀ n, n < (processReports [(0, 2), (4, 6), (2, 4)]).position_done ↔ coveredBy S n :=
  positionDone_low_water_mark [(0, 2), (4, 6), (2, 4)] (by decide) (by decide)

/-- Claim C1 (code bug demonstration).  With valid_row_ranges = [{2,5}] and
position = 0, NextRangeFrom returns the slice {0,5}: it does not advance the
position to max(position, start_row) = 2 as the specification states, the
returned slice covers rows 0 and 1 that lie in no valid row range, and the
slice {2,3} predicted by the specification is not returned.  GetNextDataRange
then advances the shared position by the returned length 5. -/
theorem nextRangeFrom_skips_no_gap :
    NextRangeFrom [⟨2, 5⟩] 0 = ⟨true, 0, 5⟩ ∧
    (∀ r ∈ [(⟨2, 5⟩ : RowRange)], ¬ inRange 0 r) ∧
    NextRangeFrom [⟨2, 5⟩] 0 ≠ ⟨true, 2, 3⟩ ∧
    GetNextDataRange [⟨2, 5⟩] 0 = (⟨true, 0, 5⟩, 5) := by
  decide

/-- Claim C7.  For every whitelisted comparison operator op and all values
c and v of a linearly ordered element type, the filter claimed from the
constant-on-left form (c op col) carries the flipped operator, and evaluating
it on a run value v — EvaluateComparison(v, FlipComparison(op), c) — returns
exactly the truth value of the original comparison c op v. -/
theorem claimComparison_flip_correct {α : Type} [LinearOrder α]
    (op : ExpressionType) (hop : comparisonWhitelisted op = true) (c v : α) :
    claimComparison true op = some (FlipComparison op) ∧
    EvaluateComparison v (FlipComparison op) c = EvaluateComparison c op v := by
  cases op <;>
    simp_all [claimComparison, comparisonWhitelisted, FlipComparison,
      EvaluateComparison, eq_comm]

/-- Witness for claim C7 at op = COMPARE_LESSTHAN, c = 3, v = 5 over Int. -/
theorem claimComparison_flip_correct_witness :
    claimComparison true ExpressionType.COMPARE_LESSTHAN =
      some (FlipComparison ExpressionType.COMPARE_LESSTHAN) ∧
    EvaluateComparison (5 : Int) (FlipComparison ExpressionType.COMPARE_LESSTHAN) 3 =
      EvaluateComparison (3 : Int) ExpressionType.COMPARE_LESSTHAN 5 :=
  claimComparison_flip_correct ExpressionType.COMPARE_LESSTHAN (by decide) 3 5

end H5db
